import Mathlib

/-!
# Goroutine-leak examples: interleaving semantics and profile analysis

A verification development over the example programs of the goroutine-leak
seminar repository.

* Go `int` values are mathematical integers wrapped to 64-bit two's complement.
* A function that starts goroutines is embedded as a transition system: the
  state holds one program counter per goroutine plus the channel buffer, and
  `next` lists every state one scheduling step away.  A blocked goroutine is one
  whose program counter contributes no successor.
* The profile analysis of `pprof_analysis/main.go` is embedded as a fold over
  the lines of the profile text.
-/

namespace GoLeaks

/-! ## Machine integers -/

/-- Two's complement wrap of a mathematical integer to Go's 64-bit `int`. -/
def wrapInt64 (x : Int) : Int := (x + 2 ^ 63) % 2 ^ 64 - 2 ^ 63

/-- Go's `a * b` on `int`. -/
def goMul (a b : Int) : Int := wrapInt64 (a * b)

/-! ## Transition systems -/

/-- A program under an arbitrary scheduler: `next s` lists the states reachable
from `s` by one step of one goroutine (or of the environment). -/
structure System (σ : Type) where
  init : σ
  next : σ → List σ

/-- States reachable from the initial state under some interleaving. -/
inductive Reachable {σ : Type} (T : System σ) : σ → Prop
  | init : Reachable T T.init
  | step {s t : σ} : Reachable T s → t ∈ T.next s → Reachable T t

/-- A state without any enabled step. -/
def Terminal {σ : Type} (T : System σ) (s : σ) : Prop := T.next s = []

/-- An infinite execution starting in the initial state. -/
def InfiniteRun {σ : Type} (T : System σ) (f : Nat → σ) : Prop :=
  f 0 = T.init ∧ ∀ n, f (n + 1) ∈ T.next (f n)

/-- Follow a schedule: at each step take the successor with the given index.
`none` when the schedule asks for a step that is not enabled. -/
def exec {σ : Type} (T : System σ) : σ → List Nat → Option σ
  | s, [] => some s
  | s, i :: rest =>
      match (T.next s)[i]? with
      | some t => exec T t rest
      | none => none

/-- The same program started in state `s`. -/
def System.startingAt {σ : Type} (T : System σ) (s : σ) : System σ :=
  { T with init := s }

/-! ## Channels -/

/-- A send that completes without a waiting receiver: the value is appended to
the buffer when there is room.  `none` means the sender must wait. -/
def chanSend {α : Type} (cap : Nat) (buf : List α) (v : α) : Option (List α) :=
  if buf.length < cap then some (buf ++ [v]) else none

/-- A receive, given the value of a sender standing at its send statement (if
any).  Returns the received value, the new buffer and whether the sender was
released.  A non-empty buffer yields its head, and a sender waiting on a full
buffer then moves its value in; an empty buffer yields the value of a waiting
sender directly when the channel is unbuffered; otherwise the receiver must
wait (`none`). -/
def chanRecv {α : Type} (cap : Nat) (buf : List α) (sender : Option α) :
    Option (α × List α × Bool) :=
  match buf, sender with
  | v :: rest, some w =>
      if cap ≤ rest.length + 1 then some (v, rest ++ [w], true) else some (v, rest, false)
  | v :: rest, none => some (v, rest, false)
  | [], some w => if cap = 0 then some (w, [], true) else none
  | [], none => none

/-! ## Package `channel`: premature return -/

namespace channel

/-- The struct `Item`. -/
structure Item where
  ID : Int
  Invalid : Bool
  deriving DecidableEq, Repr

/-- The struct `Result`. -/
structure Result where
  Value : Int
  deriving DecidableEq, Repr

/-- The function `expensiveComputation`. -/
def expensiveComputation (item : Item) : Result := ⟨goMul item.ID 2⟩

/-- Program counter of the calling goroutine inside `LeakyHandleRequest` /
`FixedHandleRequest`. -/
inductive MainPc where
  /-- about to run `ch := make(chan Result, cap)` -/
  | atMake
  /-- about to run the `go func() {...}()` statement -/
  | atGo
  /-- about to evaluate `if item.Invalid` -/
  | atIf
  /-- at `result := <-ch` -/
  | atRecv
  /-- holding the received `result`, about to run `return nil` -/
  | atReturnNil (result : Result)
  /-- returned with the given error (`none` is `nil`) -/
  | returned (err : Option String)
  deriving DecidableEq, Repr

/-- Program counter of the spawned goroutine. -/
inductive WorkerPc where
  /-- the `go` statement has not run yet -/
  | notStarted
  /-- about to run `result := expensiveComputation(item)` -/
  | atCompute
  /-- at `ch <- result` -/
  | atSend (result : Result)
  /-- the goroutine's function has returned -/
  | exited
  deriving DecidableEq, Repr

/-- Global state: both program counters and the buffer of `ch`. -/
structure State where
  main : MainPc
  worker : WorkerPc
  buf : List Result
  deriving DecidableEq, Repr

/-- The value the spawned goroutine offers on `ch`, when it stands at its send. -/
def WorkerPc.offer : WorkerPc → Option Result
  | .atSend v => some v
  | _ => none

/-- Steps of the calling goroutine. -/
def mainStep (cap : Nat) (item : Item) (s : State) : List State :=
  match s.main with
  | .atMake => [{ s with main := .atGo, buf := [] }]
  | .atGo => [{ s with main := .atIf, worker := .atCompute }]
  | .atIf =>
      if item.Invalid then [{ s with main := .returned (some "invalid item") }]
      else [{ s with main := .atRecv }]
  | .atRecv =>
      match chanRecv cap s.buf s.worker.offer with
      | some (v, buf, released) =>
          [{ main := .atReturnNil v, buf := buf,
             worker := if released then .exited else s.worker }]
      | none => []
  | .atReturnNil _ => [{ s with main := .returned none }]
  | .returned _ => []

/-- Steps the spawned goroutine can take on its own. -/
def workerStep (cap : Nat) (item : Item) (s : State) : List State :=
  match s.worker with
  | .notStarted => []
  | .atCompute => [{ s with worker := .atSend (expensiveComputation item) }]
  | .atSend v =>
      match chanSend cap s.buf v with
      | some buf => [{ s with worker := .exited, buf := buf }]
      | none => []
  | .exited => []

/-- The common body of `LeakyHandleRequest` and `FixedHandleRequest`, which
differ only in the capacity given to `make`. -/
def handleRequest (cap : Nat) (item : Item) : System State where
  init := { main := .atMake, worker := .notStarted, buf := [] }
  next s := mainStep cap item s ++ workerStep cap item s

/-- The function `LeakyHandleRequest`: `ch := make(chan Result)`. -/
def LeakyHandleRequest (item : Item) : System State := handleRequest 0 item

/-- The function `FixedHandleRequest`: `ch := make(chan Result, 1)`. -/
def FixedHandleRequest (item : Item) : System State := handleRequest 1 item

/-- The spawned goroutine is blocked: it sits at its send and no step of the
system lets it leave. -/
def WorkerBlockedAtSend (T : System State) (s : State) : Prop :=
  (∃ v, s.worker = .atSend v) ∧ ∀ t ∈ T.next s, t.worker = s.worker

/-- Progress measure of the calling goroutine. -/
def MainPc.rank : MainPc → Nat
  | .atMake => 20
  | .atGo => 16
  | .atIf => 12
  | .atRecv => 8
  | .atReturnNil _ => 4
  | .returned _ => 0

/-- Progress measure of the spawned goroutine. -/
def WorkerPc.rank : WorkerPc → Nat
  | .notStarted => 3
  | .atCompute => 2
  | .atSend _ => 1
  | .exited => 0

/-- Every step lowers this measure. -/
def State.rank (s : State) : Nat := s.main.rank + s.worker.rank

/-- Where a started worker can be, together with the buffer of `ch`. -/
def WorkerInv (cap : Nat) (item : Item) (s : State) : Prop :=
  (s.worker = .atCompute ∧ s.buf = []) ∨
  (s.worker = .atSend (expensiveComputation item) ∧ s.buf = []) ∨
  (s.worker = .exited ∧ s.buf = [expensiveComputation item] ∧ 0 < cap)

/-- Inductive invariant of `handleRequest cap item`. -/
def Inv (cap : Nat) (item : Item) (s : State) : Prop :=
  match s.main with
  | .atMake => s.worker = .notStarted ∧ s.buf = []
  | .atGo => s.worker = .notStarted ∧ s.buf = []
  | .atIf => WorkerInv cap item s
  | .atRecv => item.Invalid = false ∧ WorkerInv cap item s
  | .atReturnNil r =>
      item.Invalid = false ∧ r = expensiveComputation item ∧ s.worker = .exited ∧ s.buf = []
  | .returned (some e) => item.Invalid = true ∧ e = "invalid item" ∧ WorkerInv cap item s
  | .returned none => item.Invalid = false ∧ s.worker = .exited ∧ s.buf = []

end channel

/-! ## Package `timeout`: select against a context -/

namespace timeout

/-- The struct `Item`. -/
structure Item where
  ID : Int
  deriving DecidableEq, Repr

/-- The struct `Result`. -/
structure Result where
  Value : Int
  deriving DecidableEq, Repr

/-- The function `fetchData`: after its sleep it returns a pointer to a fresh
`Result`.  A `*Result` is an `Option Result`, `none` being `nil`. -/
def fetchData (item : Item) : Option Result := some ⟨goMul item.ID 10⟩

/-- The function `fetchDataFixed`. -/
def fetchDataFixed (item : Item) : Option Result := some ⟨goMul item.ID 10⟩

/-- The non-nil values of `ctx.Err()`. -/
inductive CtxErr where
  | Canceled
  | DeadlineExceeded
  deriving DecidableEq, Repr

/-- Program counter of the calling goroutine inside `LeakyFetchWithTimeout` /
`FixedFetchWithTimeout`. -/
inductive MainPc where
  /-- about to run `ch := make(chan *Result, cap)` -/
  | atMake
  /-- about to run the `go func() {...}()` statement -/
  | atGo
  /-- entering the `select`: about to poll both cases -/
  | atSelect
  /-- inside the `select`, waiting because no case was ready on entry -/
  | parked
  /-- case `result := <-ch` was taken, about to run `return result, nil` -/
  | gotResult (result : Option Result)
  /-- case `<-ctx.Done()` was taken, about to run `return nil, ctx.Err()` -/
  | gotDone
  /-- returned `(result, err)` -/
  | returned (result : Option Result) (err : Option CtxErr)
  deriving DecidableEq, Repr

/-- Program counter of the spawned goroutine. -/
inductive WorkerPc where
  /-- the `go` statement has not run yet -/
  | notStarted
  /-- inside `fetchData(item)` (sleeping, then building the result) -/
  | atFetch
  /-- at `ch <- result` -/
  | atSend (result : Option Result)
  /-- the goroutine's function has returned -/
  | exited
  deriving DecidableEq, Repr

/-- Global state.  `ctxErr` is what `ctx.Err()` returns: `none` until the
context is done, and from then on the same error. -/
structure State where
  main : MainPc
  worker : WorkerPc
  buf : List (Option Result)
  ctxErr : Option CtxErr
  deriving DecidableEq, Repr

/-- The value the spawned goroutine offers on `ch`, when it stands at its send. -/
def WorkerPc.offer : WorkerPc → Option (Option Result)
  | .atSend v => some v
  | _ => none

/-- The `select` case `result := <-ch`, when it can proceed. -/
def recvCase (cap : Nat) (s : State) : List State :=
  match chanRecv cap s.buf s.worker.offer with
  | some (v, buf, released) =>
      [{ s with main := .gotResult v, buf := buf,
                worker := if released then .exited else s.worker }]
  | none => []

/-- The `select` case `<-ctx.Done()`, when it can proceed. -/
def doneCase (s : State) : List State :=
  if s.ctxErr.isSome then [{ s with main := .gotDone }] else []

/-- Steps of the calling goroutine.  On entry the `select` takes any one of the
cases that can proceed; when none can, the goroutine parks and is later resumed
by whoever makes a case ready. -/
def mainStep (cap : Nat) (s : State) : List State :=
  match s.main with
  | .atMake => [{ s with main := .atGo, buf := [] }]
  | .atGo => [{ s with main := .atSelect, worker := .atFetch }]
  | .atSelect =>
      match recvCase cap s ++ doneCase s with
      | [] => [{ s with main := .parked }]
      | ready => ready
  | .parked => []
  | .gotResult r => [{ s with main := .returned r none }]
  | .gotDone => [{ s with main := .returned none s.ctxErr }]
  | .returned _ _ => []

/-- Steps of the spawned goroutine.  A send hands its value straight to a
receiver parked in the `select`; otherwise it needs room in the buffer. -/
def workerStep (cap : Nat) (fetch : Item → Option Result) (item : Item) (s : State) :
    List State :=
  match s.worker with
  | .notStarted => []
  | .atFetch => [{ s with worker := .atSend (fetch item) }]
  | .atSend v =>
      if s.main = .parked then [{ s with main := .gotResult v, worker := .exited }]
      else
        match chanSend cap s.buf v with
        | some buf => [{ s with worker := .exited, buf := buf }]
        | none => []
  | .exited => []

/-- Steps of the environment: a context that is not yet done may become done,
by cancellation or by its deadline; this resumes a caller parked in the
`select` through the `ctx.Done()` case. -/
def ctxStep (s : State) : List State :=
  match s.ctxErr with
  | some _ => []
  | none =>
      [CtxErr.Canceled, CtxErr.DeadlineExceeded].map fun e =>
        { s with ctxErr := some e, main := if s.main = .parked then .gotDone else s.main }

/-- The common body of `LeakyFetchWithTimeout` and `FixedFetchWithTimeout`;
`ctx0` is the state of the context at the call. -/
def fetchWithTimeout (cap : Nat) (fetch : Item → Option Result) (ctx0 : Option CtxErr)
    (item : Item) : System State where
  init := { main := .atMake, worker := .notStarted, buf := [], ctxErr := ctx0 }
  next s := mainStep cap s ++ workerStep cap fetch item s ++ ctxStep s

/-- The function `LeakyFetchWithTimeout`: `ch := make(chan *Result)`. -/
def LeakyFetchWithTimeout (ctx0 : Option CtxErr) (item : Item) : System State :=
  fetchWithTimeout 0 fetchData ctx0 item

/-- The function `FixedFetchWithTimeout`: `ch := make(chan *Result, 1)`. -/
def FixedFetchWithTimeout (ctx0 : Option CtxErr) (item : Item) : System State :=
  fetchWithTimeout 1 fetchDataFixed ctx0 item

/-- The calling goroutine is inside its `select`. -/
def MainPc.inSelect : MainPc → Bool
  | .atSelect => true
  | .parked => true
  | _ => false

/-- Progress measure of the calling goroutine. -/
def MainPc.rank : MainPc → Nat
  | .atMake => 20
  | .atGo => 16
  | .atSelect => 12
  | .parked => 8
  | .gotResult _ => 4
  | .gotDone => 4
  | .returned _ _ => 0

/-- Progress measure of the spawned goroutine. -/
def WorkerPc.rank : WorkerPc → Nat
  | .notStarted => 3
  | .atFetch => 2
  | .atSend _ => 1
  | .exited => 0

/-- Every step lowers this measure; a context can become done only once. -/
def State.rank (s : State) : Nat :=
  s.main.rank + s.worker.rank + (if s.ctxErr.isSome then 0 else 1)

/-- Where a started worker can be, together with the buffer of `ch`; `r0` is the
fetched result. -/
def WorkerInv (cap : Nat) (r0 : Option Result) (s : State) : Prop :=
  (s.worker = .atFetch ∧ s.buf = []) ∨
  (s.worker = .atSend r0 ∧ s.buf = []) ∨
  (s.worker = .exited ∧ s.buf = [r0] ∧ 0 < cap)

/-- Inductive invariant of `fetchWithTimeout cap fetch ctx0 item`, with
`r0 = fetch item`. -/
def Inv (cap : Nat) (r0 : Option Result) (s : State) : Prop :=
  match s.main with
  | .atMake => s.worker = .notStarted ∧ s.buf = []
  | .atGo => s.worker = .notStarted ∧ s.buf = []
  | .atSelect => WorkerInv cap r0 s
  | .parked => s.ctxErr = none ∧ s.buf = [] ∧ (s.worker = .atFetch ∨ s.worker = .atSend r0)
  | .gotResult r => r = r0 ∧ s.worker = .exited ∧ s.buf = []
  | .gotDone => s.ctxErr ≠ none ∧ WorkerInv cap r0 s
  | .returned res err =>
      (res = r0 ∧ err = none ∧ s.worker = .exited ∧ s.buf = []) ∨
      (res = none ∧ err = s.ctxErr ∧ s.ctxErr ≠ none ∧ WorkerInv cap r0 s)

end timeout

/-! ## Package `false_positive`: two goroutines that rendezvous -/

namespace false_positive

/-- Program counter of the goroutine calling `TwoGoroutinesCommunicating`. -/
inductive MainPc where
  /-- about to run `c := make(chan int)` -/
  | atMake
  /-- about to start G2 -/
  | atGoG2
  /-- about to start G3 -/
  | atGoG3
  /-- the function has returned -/
  | returned
  deriving DecidableEq, Repr

/-- Program counter of G2, whose body is `<-c`. -/
inductive G2Pc where
  | notStarted
  | atRecv
  | exited
  deriving DecidableEq, Repr

/-- Program counter of G3, whose body is `c <- 1`. -/
inductive G3Pc where
  | notStarted
  | atSend
  | exited
  deriving DecidableEq, Repr

/-- Global state: the three program counters and the buffer of `c`. -/
structure State where
  main : MainPc
  g2 : G2Pc
  g3 : G3Pc
  buf : List Int
  deriving DecidableEq, Repr

/-- The value G3 offers on `c`, when it stands at its send. -/
def G3Pc.offer : G3Pc → Option Int
  | .atSend => some 1
  | _ => none

/-- Steps of the calling goroutine. -/
def mainStep (s : State) : List State :=
  match s.main with
  | .atMake => [{ s with main := .atGoG2, buf := [] }]
  | .atGoG2 => [{ s with main := .atGoG3, g2 := .atRecv }]
  | .atGoG3 => [{ s with main := .returned, g3 := .atSend }]
  | .returned => []

/-- Steps of G2: the receive `<-c`, whose value is discarded. -/
def g2Step (s : State) : List State :=
  match s.g2 with
  | .atRecv =>
      match chanRecv 0 s.buf s.g3.offer with
      | some (_, buf, released) =>
          [{ s with g2 := .exited, buf := buf, g3 := if released then .exited else s.g3 }]
      | none => []
  | _ => []

/-- Steps G3 can take on its own: a send into the buffer of `c`. -/
def g3Step (s : State) : List State :=
  match s.g3 with
  | .atSend =>
      match chanSend 0 s.buf 1 with
      | some buf => [{ s with g3 := .exited, buf := buf }]
      | none => []
  | _ => []

/-- The function `TwoGoroutinesCommunicating`. -/
def TwoGoroutinesCommunicating : System State where
  init := { main := .atMake, g2 := .notStarted, g3 := .notStarted, buf := [] }
  next s := mainStep s ++ g2Step s ++ g3Step s

/-- Some goroutine started by the function is waiting on a channel operation. -/
def SomeBlocked (s : State) : Prop := s.g2 = .atRecv ∨ s.g3 = .atSend

/-- Progress measure: every step lowers it. -/
def State.rank (s : State) : Nat :=
  (match s.main with
    | .atMake => 12
    | .atGoG2 => 8
    | .atGoG3 => 4
    | .returned => 0) +
  (match s.g2 with
    | .notStarted => 1
    | .atRecv => 1
    | .exited => 0) +
  (match s.g3 with
    | .notStarted => 1
    | .atSend => 1
    | .exited => 0)

/-- Inductive invariant of `TwoGoroutinesCommunicating`. -/
def Inv (s : State) : Prop :=
  s.buf = [] ∧
  match s.main with
  | .atMake => s.g2 = .notStarted ∧ s.g3 = .notStarted
  | .atGoG2 => s.g2 = .notStarted ∧ s.g3 = .notStarted
  | .atGoG3 => s.g2 = .atRecv ∧ s.g3 = .notStarted
  | .returned => (s.g2 = .atRecv ∧ s.g3 = .atSend) ∨ (s.g2 = .exited ∧ s.g3 = .exited)

end false_positive

/-! ## Program `pprof_analysis`: grouping blocked goroutines by location -/

namespace pprof_analysis

/-- A Go string, as the sequence of its characters. -/
abbrev Str := List Char

/-- Go's `strings.HasPrefix`. -/
def startsWith : Str → Str → Bool
  | _, [] => true
  | [], _ :: _ => false
  | c :: s, d :: p => c == d && startsWith s p

/-- Go's `strings.Contains`. -/
def Contains : Str → Str → Bool
  | [], sub => startsWith [] sub
  | c :: s, sub => startsWith (c :: s) sub || Contains s sub

/-- Go's `unicode.IsSpace`. -/
def isSpace (c : Char) : Bool :=
  let n := c.toNat
  (9 ≤ n && n ≤ 13) || n == 32 || n == 0x85 || n == 0xA0 || n == 0x1680 ||
    (0x2000 ≤ n && n ≤ 0x200A) || n == 0x2028 || n == 0x2029 || n == 0x202F ||
    n == 0x205F || n == 0x3000

/-- Go's `strings.TrimSpace`. -/
def TrimSpace (s : Str) : Str :=
  ((s.dropWhile isSpace).reverse.dropWhile isSpace).reverse

/-- Go's `strings.Split(s, "\n")`: one more piece than there are newlines. -/
def splitLines : Str → List Str
  | [] => [[]]
  | c :: cs =>
      if c = '\n' then [] :: splitLines cs
      else
        match splitLines cs with
        | [] => [[c]]
        | l :: ls => (c :: l) :: ls

/-- The line `lines[j]`. -/
def lineAt (lines : List Str) (j : Nat) : Str := lines.getD j []

/-- The inner loop `for j := i + 1; j < len(lines) && j < i+5; j++`: the first
visited line containing "pprof_analysis", trimmed; `none` when the loop ends
without a `break`. -/
def findLocation (lines : List Str) (i : Nat) : Option Str :=
  (((List.range' (i + 1) 4).filter fun j => decide (j < lines.length)).find? fun j =>
      Contains (lineAt lines j) "pprof_analysis".toList).map fun j =>
    TrimSpace (lineAt lines j)

/-- The variables the outer loop updates. -/
structure Counts where
  blockedOnSend : Nat
  blockedOnRecv : Nat
  leakLocations : List Str
  deriving DecidableEq, Repr

/-- The location appended at iteration `i` of the outer loop, if any. -/
def appendedAt (lines : List Str) (i : Nat) : Option Str :=
  if Contains (lineAt lines i) "chan send".toList then findLocation lines i else none

/-- One iteration of `for i, line := range lines`. -/
def loopBody (lines : List Str) (acc : Counts) (i : Nat) : Counts :=
  let line := lineAt lines i
  let acc1 :=
    if Contains line "chan send".toList then
      { acc with
        blockedOnSend := acc.blockedOnSend + 1
        leakLocations :=
          match findLocation lines i with
          | some loc => acc.leakLocations ++ [loc]
          | none => acc.leakLocations }
    else acc
  if Contains line "chan receive".toList then
    { acc1 with blockedOnRecv := acc1.blockedOnRecv + 1 }
  else acc1

/-- The outer loop of `analyzeGoroutineProfile` over the lines of the profile. -/
def scanLines (lines : List Str) : Counts :=
  (List.range lines.length).foldl (loopBody lines) ⟨0, 0, []⟩

/-- The counting part of `analyzeGoroutineProfile` on a profile text. -/
def scanProfile (profile : Str) : Counts := scanLines (splitLines profile)

/-- Reading `seen[k]` in a `map[string]int` kept as a list of entries with
distinct keys; a missing key reads as 0. -/
def mapGet : List (Str × Nat) → Str → Nat
  | [], _ => 0
  | (k, n) :: m, x => if k = x then n else mapGet m x

/-- The statement `seen[loc]++`. -/
def mapIncr : List (Str × Nat) → Str → List (Str × Nat)
  | [], x => [(x, 1)]
  | (k, n) :: m, x => if k = x then (k, n + 1) :: m else (k, n) :: mapIncr m x

/-- How many entries of `xs` equal `x`. -/
def occurrences (xs : List Str) (x : Str) : Nat :=
  (xs.filter fun y => decide (y = x)).length

/-- The keys of the map. -/
def mapKeys (m : List (Str × Nat)) : List Str := m.map Prod.fst

/-- The loop `for _, loc := range leakLocations { seen[loc]++ }` on a fresh map. -/
def buildSeen (leakLocations : List Str) : List (Str × Nat) :=
  leakLocations.foldl mapIncr []

/-- The line printed by `fmt.Printf("  [%d goroutines] %s\n", count, loc)`. -/
def formatLine (count : Nat) (loc : Str) : Str :=
  "  [".toList ++ (Nat.repr count).toList ++ " goroutines] ".toList ++ loc ++ ['\n']

/-- An order in which `for loc, count := range seen` may visit the map: Go leaves
the iteration order of a map unspecified, so any arrangement of the keys. -/
def IterationOrder (seen : List (Str × Nat)) (order : List Str) : Prop :=
  order.Perm (mapKeys seen)

/-- The location lines printed by the reporting step
`if blockedOnSend > 0 { ... }` when the map is visited in the given order. -/
def reportLines (c : Counts) (order : List Str) : List Str :=
  if 0 < c.blockedOnSend then
    order.map fun loc => formatLine (mapGet (buildSeen c.leakLocations) loc) loc
  else []

/-- The number printed by
`fmt.Println("In this demo, we have", blockedOnSend, "goroutines blocked at the same location")`. -/
def reportedAtSameLocation (c : Counts) : Nat := c.blockedOnSend

/-- A profile with two goroutines blocked on a channel send at two different
locations of the program. -/
def twoSiteProfile : Str :=
  ("goroutine 18 [chan send]:\n" ++
   "main.leakyFetch.func1()\n" ++
   "\t/src/examples/pprof_analysis/main.go:54 +0x3c\n" ++
   "created by main.leakyFetch in goroutine 1\n" ++
   "\t/src/examples/pprof_analysis/main.go:52 +0x8f\n" ++
   "\n" ++
   "goroutine 19 [chan send]:\n" ++
   "main.otherSend.func1()\n" ++
   "\t/src/examples/pprof_analysis/other.go:12 +0x2a\n").toList

/-- One goroutine in the text that `pprof.Lookup("goroutine").WriteTo(&buf, 2)`
produces, which is the only profile text `analyzeGoroutineProfile` reads: a
header line `goroutine N [state]:` followed by the lines of its stack, two per
frame (the function, then a tab and `file:line`), the "created by" frame
included. -/
structure Block where
  header : Str
  stack : List Str
  deriving DecidableEq, Repr

/-- The lines, each ended by a newline. -/
def unlines : List Str → Str
  | [] => []
  | l :: ls => l ++ '\n' :: unlines ls

/-- The text of one goroutine. -/
def blockText (b : Block) : Str := unlines (b.header :: b.stack)

/-- The text of a goroutine profile at `debug=2`: the goroutines in turn,
separated by one empty line. -/
def renderProfile : List Block → Str
  | [] => []
  | b :: bs =>
      match bs with
      | [] => blockText b
      | _ :: _ => blockText b ++ '\n' :: renderProfile bs

/-- The lines of that text up to the empty last piece: for every goroutine its
header, its stack and an empty line. -/
def bodyLines : List Block → List Str
  | [] => []
  | b :: bs => b.header :: b.stack ++ [] :: bodyLines bs

/-- What the runtime's format guarantees about one goroutine: no line contains
a newline; the stack has at least one frame, hence two lines, none of them empty;
the state "chan send" appears in headers only; and a header carries no source
path, so it does not contain "pprof_analysis". -/
def Block.WellFormed (b : Block) : Prop :=
  '\n' ∉ b.header ∧
  Contains b.header "pprof_analysis".toList = false ∧
  2 ≤ b.stack.length ∧
  ∀ l ∈ b.stack, '\n' ∉ l ∧ l ≠ [] ∧ Contains l "chan send".toList = false

instance (b : Block) : Decidable b.WellFormed := by
  unfold Block.WellFormed
  infer_instance

/-- The goroutine is blocked on a channel send. -/
def Block.sendBlocked (b : Block) : Bool := Contains b.header "chan send".toList

/-- A profile of the demo as `main` produces it: the main goroutine, which is
writing the profile, and two goroutines started by `leakyFetch` that are blocked
at the send in line 54. -/
def demoBlocks : List Block :=
  [ { header := "goroutine 1 [running]:".toList
      stack :=
        [ "runtime/pprof.writeGoroutineStacks({0x4c6a40, 0xc000070150})".toList,
          "\t/usr/local/go/src/runtime/pprof/pprof.go:764 +0x6a".toList,
          "runtime/pprof.writeGoroutine({0x4c6a40?, 0xc000070150?}, 0x0?)".toList,
          "\t/usr/local/go/src/runtime/pprof/pprof.go:753 +0x25".toList,
          "runtime/pprof.(*Profile).WriteTo(0x55e2e0?, {0x4c6a40?, 0xc000070150?}, 0xc?)".toList,
          "\t/usr/local/go/src/runtime/pprof/pprof.go:377 +0x14b".toList,
          "main.analyzeGoroutineProfile()".toList,
          "\t/src/examples/pprof_analysis/main.go:75 +0x6c".toList,
          "main.main()".toList,
          "\t/src/examples/pprof_analysis/main.go:35 +0xd4".toList ] },
    { header := "goroutine 18 [chan send]:".toList
      stack :=
        [ "main.leakyFetch.func1()".toList,
          "\t/src/examples/pprof_analysis/main.go:54 +0x3c".toList,
          "created by main.leakyFetch in goroutine 1".toList,
          "\t/src/examples/pprof_analysis/main.go:52 +0x8f".toList ] },
    { header := "goroutine 19 [chan send]:".toList
      stack :=
        [ "main.leakyFetch.func1()".toList,
          "\t/src/examples/pprof_analysis/main.go:54 +0x3c".toList,
          "created by main.leakyFetch in goroutine 1".toList,
          "\t/src/examples/pprof_analysis/main.go:52 +0x8f".toList ] } ]

end pprof_analysis


/-! # Theorems -/

/-! ## Transition systems -/

theorem Reachable.exec {σ : Type} {T : System σ} (sched : List Nat) :
    ∀ {s t : σ}, Reachable T s → GoLeaks.exec T s sched = some t → Reachable T t := by
  induction sched with
  | nil =>
      intro s t hs h
      simp only [GoLeaks.exec, Option.some.injEq] at h
      exact h ▸ hs
  | cons i rest ih =>
      intro s t hs h
      simp only [GoLeaks.exec] at h
      cases hn : (T.next s)[i]? with
      | none => simp [hn] at h
      | some u =>
          rw [hn] at h
          exact ih (Reachable.step hs (List.getElem?_mem hn)) h

theorem Reachable.of_startingAt {σ : Type} {T : System σ} {s t : σ}
    (hs : Reachable T s) (ht : Reachable (T.startingAt s) t) : Reachable T t := by
  induction ht with
  | init => exact hs
  | step _ hmem ih => exact Reachable.step ih hmem

theorem Reachable.invariant {σ : Type} {T : System σ} (P : σ → Prop)
    (h0 : P T.init) (hstep : ∀ s t, P s → t ∈ T.next s → P t) :
    ∀ {s : σ}, Reachable T s → P s := by
  intro s hs
  induction hs with
  | init => exact h0
  | step _ hmem ih => exact hstep _ _ ih hmem

/-- A measure that every step lowers rules out infinite executions. -/
theorem no_infiniteRun_of_rank {σ : Type} (T : System σ) (μ : σ → Nat)
    (h : ∀ s t, t ∈ T.next s → μ t < μ s) (f : Nat → σ) : ¬ InfiniteRun T f := by
  rintro ⟨_, hf⟩
  have key : ∀ n, μ (f n) + n ≤ μ (f 0) := by
    intro n
    induction n with
    | zero => simp
    | succ n ih =>
        have := h _ _ (hf n)
        omega
  have := key (μ (f 0) + 1)
  omega

/-- With such a measure every reachable state can be run on to a terminal one. -/
theorem exists_terminal_of_rank {σ : Type} (T : System σ) (μ : σ → Nat)
    (h : ∀ s t, t ∈ T.next s → μ t < μ s) :
    ∀ (n : Nat) (s : σ), μ s ≤ n → Reachable T s →
      ∃ t, Reachable (T.startingAt s) t ∧ Terminal T t := by
  intro n
  induction n with
  | zero =>
      intro s hn _
      refine ⟨s, Reachable.init, ?_⟩
      cases hnx : T.next s with
      | nil => exact hnx
      | cons t _ =>
          have := h s t (by simp [hnx])
          omega
  | succ n ih =>
      intro s hn hs
      cases hnx : T.next s with
      | nil => exact ⟨s, Reachable.init, hnx⟩
      | cons t _ =>
          have hmem : t ∈ T.next s := by simp [hnx]
          have hlt := h s t hmem
          obtain ⟨u, hu, hterm⟩ := ih t (by omega) (Reachable.step hs hmem)
          refine ⟨u, ?_, hterm⟩
          have hst : Reachable (T.startingAt s) t := Reachable.step Reachable.init hmem
          exact Reachable.of_startingAt hst hu

/-! ## Package `channel` -/

namespace channel

theorem handleRequest_rank_decreases (cap : Nat) (item : Item) (s t : State)
    (h : t ∈ (handleRequest cap item).next s) : t.rank < s.rank := by
  obtain ⟨m, w, b⟩ := s
  simp only [handleRequest, List.mem_append] at h
  rcases h with h | h
  · cases m <;> simp only [mainStep] at h
    all_goals first
      | (simp only [List.mem_singleton] at h; subst h
         cases w <;> simp [State.rank, MainPc.rank, WorkerPc.rank])
      | (split at h <;> simp only [List.mem_singleton, List.not_mem_nil] at h <;>
          first
            | contradiction
            | (subst h; cases w <;> simp [State.rank, MainPc.rank, WorkerPc.rank] <;>
                split <;> simp [WorkerPc.rank]))
      | simp at h
  · cases w <;> simp only [workerStep] at h
    all_goals first
      | (simp only [List.mem_singleton] at h; subst h
         simp [State.rank, MainPc.rank, WorkerPc.rank])
      | (split at h <;> simp only [List.mem_singleton, List.not_mem_nil] at h <;>
          first
            | contradiction
            | (subst h; simp [State.rank, MainPc.rank, WorkerPc.rank]))
      | simp at h

theorem handleRequest_inv_init (cap : Nat) (item : Item) : Inv cap item (handleRequest cap item).init := by
  simp [Inv, handleRequest]

theorem handleRequest_inv_step (cap : Nat) (item : Item) (s t : State) (hs : Inv cap item s)
    (h : t ∈ (handleRequest cap item).next s) : Inv cap item t := by
  obtain ⟨m, w, b⟩ := s
  simp only [handleRequest, List.mem_append] at h
  rcases h with h | h
  · cases m with
    | atMake => simp_all [Inv, mainStep]
    | atGo => simp_all [Inv, mainStep, WorkerInv]
    | atIf =>
        cases hi : item.Invalid <;> simp_all [Inv, mainStep, WorkerInv]
    | atRecv =>
        simp only [Inv, WorkerInv] at hs
        obtain ⟨hv, hw⟩ := hs
        rcases hw with ⟨hw, hb⟩ | ⟨hw, hb⟩ | ⟨hw, hb, hc⟩ <;> subst hw hb
        · simp [mainStep, chanRecv, WorkerPc.offer] at h
        · by_cases hc : cap = 0
          · simp [mainStep, chanRecv, WorkerPc.offer, hc] at h
            subst h
            simp [Inv, hv]
          · simp [mainStep, chanRecv, WorkerPc.offer, hc] at h
        · simp [mainStep, chanRecv, WorkerPc.offer] at h
          subst h
          simp [Inv, hv]
    | atReturnNil r => simp_all [Inv, mainStep]
    | returned e => simp [mainStep] at h
  · cases w with
    | notStarted => simp [workerStep] at h
    | atCompute =>
        simp only [workerStep, List.mem_singleton] at h
        subst h
        cases m with
        | returned e => cases e <;> simp_all [Inv, WorkerInv]
        | _ => simp_all [Inv, WorkerInv]
    | atSend v =>
        by_cases hc : b.length < cap
        · simp only [workerStep, chanSend, hc, if_true, List.mem_singleton] at h
          subst h
          cases m with
          | returned e => cases e <;> simp_all [Inv, WorkerInv]
          | _ => simp_all [Inv, WorkerInv]
        · simp [workerStep, chanSend, hc] at h
    | exited => simp [workerStep] at h

theorem handleRequest_inv_of_reachable {cap : Nat} {item : Item} {s : State}
    (h : Reachable (handleRequest cap item) s) : Inv cap item s :=
  Reachable.invariant (Inv cap item) (handleRequest_inv_init cap item) (handleRequest_inv_step cap item) h

theorem handleRequest_no_infiniteRun (cap : Nat) (item : Item) (f : Nat → State) :
    ¬ InfiniteRun (handleRequest cap item) f :=
  no_infiniteRun_of_rank _ State.rank (handleRequest_rank_decreases cap item) f

/-- With a buffered channel the only states without an enabled step are those
in which the caller has returned and the worker has exited. -/
theorem terminal_of_buffered (cap : Nat) (hcap : 0 < cap) (item : Item) (s : State)
    (hs : Reachable (handleRequest cap item) s) (ht : Terminal (handleRequest cap item) s) :
    (∃ e, s.main = .returned e) ∧ s.worker = .exited := by
  have hinv := handleRequest_inv_of_reachable hs
  obtain ⟨m, w, b⟩ := s
  simp only [Terminal, handleRequest, List.append_eq_nil] at ht
  obtain ⟨hm, hw⟩ := ht
  cases m with
  | atMake => simp [mainStep] at hm
  | atGo => simp [mainStep] at hm
  | atIf => cases hi : item.Invalid <;> simp [mainStep, hi] at hm
  | atReturnNil r => simp [mainStep] at hm
  | atRecv =>
      simp only [Inv, WorkerInv] at hinv
      obtain ⟨_, hw3⟩ := hinv
      rcases hw3 with ⟨h1, h2⟩ | ⟨h1, h2⟩ | ⟨h1, h2, _⟩ <;> subst h1 h2
      · simp [workerStep] at hw
      · simp [workerStep, chanSend, hcap] at hw
      · simp [mainStep, chanRecv, WorkerPc.offer] at hm
  | returned e =>
      refine ⟨⟨e, rfl⟩, ?_⟩
      cases e with
      | none => simp_all [Inv]
      | some e =>
          simp only [Inv, WorkerInv] at hinv
          obtain ⟨_, _, hw3⟩ := hinv
          rcases hw3 with ⟨h1, h2⟩ | ⟨h1, h2⟩ | ⟨h1, h2, _⟩ <;> subst h1 h2
          · simp [workerStep] at hw
          · simp [workerStep, chanSend, hcap] at hw
          · rfl

theorem returned_error (cap : Nat) (item : Item) (s : State) (e : Option String)
    (hs : Reachable (handleRequest cap item) s) (hret : s.main = .returned e) :
    e = if item.Invalid then some "invalid item" else none := by
  have hinv := handleRequest_inv_of_reachable hs
  obtain ⟨m, w, b⟩ := s
  simp only at hret
  subst hret
  cases e <;> simp_all [Inv]

/-- C1: for every Item, FixedHandleRequest always returns (no execution runs
forever, and an execution can only stop once the call has returned), the
returned error is non-nil exactly when item.Invalid is true, an invalid item
yields the error "invalid item", a valid item yields nil, and the nil return is
only ever taken after receiving the value expensiveComputation(item) from the
channel, the sending goroutine having exited. -/
theorem FixedHandleRequest_error_iff_invalid (item : Item) :
    (∀ f, ¬ InfiniteRun (FixedHandleRequest item) f) ∧
    (∀ s, Reachable (FixedHandleRequest item) s → Terminal (FixedHandleRequest item) s →
      ∃ e, s.main = .returned e) ∧
    (∃ s e, Reachable (FixedHandleRequest item) s ∧ s.main = .returned e) ∧
    (∀ s e, Reachable (FixedHandleRequest item) s → s.main = .returned e →
      (e ≠ none ↔ item.Invalid = true) ∧
      (item.Invalid = true → e = some "invalid item") ∧
      (item.Invalid = false → e = none)) ∧
    (∀ s t, Reachable (FixedHandleRequest item) s → t ∈ (FixedHandleRequest item).next s →
      t.main = .returned none → s.main ≠ .returned none →
      s.main = .atReturnNil (expensiveComputation item)) ∧
    (∀ s r, Reachable (FixedHandleRequest item) s → s.main = .atReturnNil r →
      item.Invalid = false ∧ r = expensiveComputation item ∧ s.worker = .exited) := by
  refine ⟨handleRequest_no_infiniteRun 1 item, ?_, ?_, ?_, ?_, ?_⟩
  · intro s hs ht
    exact (terminal_of_buffered 1 (by decide) item s hs ht).1
  · obtain ⟨t, ht, hterm⟩ :=
      exists_terminal_of_rank (FixedHandleRequest item) State.rank (handleRequest_rank_decreases 1 item) _
        (FixedHandleRequest item).init le_rfl Reachable.init
    have hr : Reachable (FixedHandleRequest item) t := Reachable.of_startingAt Reachable.init ht
    obtain ⟨e, he⟩ := (terminal_of_buffered 1 (by decide) item t hr hterm).1
    exact ⟨t, e, hr, he⟩
  · intro s e hs hret
    have he := returned_error 1 item s e hs hret
    cases hi : item.Invalid <;> simp [hi] at he <;> simp [he]
  · intro s t hs ht hret hne
    have hinv := handleRequest_inv_of_reachable hs
    obtain ⟨m, w, b⟩ := s
    simp only [FixedHandleRequest, handleRequest, List.mem_append] at ht
    rcases ht with ht | ht
    · cases m with
      | atMake => simp [mainStep] at ht; subst ht; simp at hret
      | atGo => simp [mainStep] at ht; subst ht; simp at hret
      | atIf => cases hi : item.Invalid <;> simp [mainStep, hi] at ht <;> subst ht <;> simp at hret
      | atRecv =>
          simp only [mainStep] at ht
          split at ht <;> simp at ht
          subst ht
          simp at hret
      | atReturnNil r => simp_all [Inv]
      | returned e => simp [mainStep] at ht
    · have hm : t.main = m := by
        cases w with
        | notStarted => simp [workerStep] at ht
        | atCompute => simp [workerStep] at ht; subst ht; rfl
        | atSend v =>
            simp only [workerStep] at ht
            split at ht <;> simp at ht
            subst ht; rfl
        | exited => simp [workerStep] at ht
      simp only at hne
      rw [hm] at hret
      exact absurd hret hne
  · intro s r hs hr
    have hinv := handleRequest_inv_of_reachable hs
    obtain ⟨m, w, b⟩ := s
    simp only at hr
    subst hr
    simp only [Inv] at hinv
    exact ⟨hinv.1, hinv.2.1, hinv.2.2.1⟩

/-- C2, the claim as stated fails: with the item `{ID: 1, Invalid: true}` the
call can return its error while the spawned goroutine has not yet reached
`ch <- result`; in that state it is not blocked at the send. -/
theorem LeakyHandleRequest_returns_before_worker_at_send :
    ∃ s, Reachable (LeakyHandleRequest ⟨1, true⟩) s ∧
      s.main = .returned (some "invalid item") ∧ s.worker = .atCompute ∧
      ¬ WorkerBlockedAtSend (LeakyHandleRequest ⟨1, true⟩) s := by
  refine ⟨⟨.returned (some "invalid item"), .atCompute, []⟩, ?_, rfl, rfl, ?_⟩
  · exact Reachable.exec [0, 0, 0] Reachable.init (by decide)
  · rintro ⟨⟨v, hv⟩, _⟩
    simp at hv

/-- C2, amended: for every Item with Invalid = true the goroutine spawned by
LeakyHandleRequest never terminates.  In every reachable state it has not
exited; once LeakyHandleRequest has returned (always with the error
"invalid item") the goroutine is either still computing its result or at
`ch <- result` with no step left in the whole system; whenever it is at the
send no step moves it; and every execution is finite and stops with the call
returned and the goroutine blocked at the send. -/
theorem LeakyHandleRequest_invalid_leaks (item : Item) (hinvalid : item.Invalid = true) :
    (∀ s, Reachable (LeakyHandleRequest item) s → s.worker ≠ .exited) ∧
    (∀ s e, Reachable (LeakyHandleRequest item) s → s.main = .returned e →
      e = some "invalid item" ∧
      (s.worker = .atCompute ∨
        (s.worker = .atSend (expensiveComputation item) ∧
          Terminal (LeakyHandleRequest item) s))) ∧
    (∀ s, Reachable (LeakyHandleRequest item) s → (∃ v, s.worker = .atSend v) →
      WorkerBlockedAtSend (LeakyHandleRequest item) s) ∧
    (∀ f, ¬ InfiniteRun (LeakyHandleRequest item) f) ∧
    (∀ s, Reachable (LeakyHandleRequest item) s → Terminal (LeakyHandleRequest item) s →
      s.main = .returned (some "invalid item") ∧
      WorkerBlockedAtSend (LeakyHandleRequest item) s) := by
  have hblocked : ∀ s, Reachable (LeakyHandleRequest item) s → (∃ v, s.worker = .atSend v) →
      WorkerBlockedAtSend (LeakyHandleRequest item) s := by
    intro s hs hv
    refine ⟨hv, ?_⟩
    obtain ⟨v, hv⟩ := hv
    have hinv := handleRequest_inv_of_reachable hs
    obtain ⟨m, w, b⟩ := s
    simp only at hv
    subst hv
    intro t ht
    simp only [LeakyHandleRequest, handleRequest, List.mem_append] at ht
    rcases ht with ht | ht
    · cases m with
      | atMake => simp [mainStep] at ht; subst ht; rfl
      | atGo => simp [Inv] at hinv
      | atIf => simp [mainStep, hinvalid] at ht; subst ht; rfl
      | atRecv => simp [Inv, hinvalid] at hinv
      | atReturnNil r => simp [Inv, hinvalid] at hinv
      | returned e => simp [mainStep] at ht
    · simp [workerStep, chanSend] at ht
  refine ⟨?_, ?_, hblocked, handleRequest_no_infiniteRun 0 item, ?_⟩
  · intro s hs hex
    have hinv := handleRequest_inv_of_reachable hs
    obtain ⟨m, w, b⟩ := s
    simp only at hex
    subst hex
    cases m with
    | returned e => cases e <;> simp_all [Inv, WorkerInv]
    | _ => simp_all [Inv, WorkerInv]
  · intro s e hs hret
    have he := returned_error 0 item s e hs hret
    simp only [hinvalid, if_true] at he
    refine ⟨he, ?_⟩
    have hinv := handleRequest_inv_of_reachable hs
    obtain ⟨m, w, b⟩ := s
    simp only at hret
    subst hret he
    simp only [Inv, WorkerInv] at hinv
    obtain ⟨_, _, hw3⟩ := hinv
    rcases hw3 with ⟨h1, h2⟩ | ⟨h1, h2⟩ | ⟨h1, h2, h3⟩
    · exact Or.inl h1
    · right
      refine ⟨h1, ?_⟩
      subst h1 h2
      simp [Terminal, LeakyHandleRequest, handleRequest, mainStep, workerStep, chanSend]
    · omega
  · intro s hs ht
    have hinv := handleRequest_inv_of_reachable hs
    have hterm := ht
    obtain ⟨m, w, b⟩ := s
    simp only [Terminal, LeakyHandleRequest, handleRequest, List.append_eq_nil] at ht
    obtain ⟨hm, hw⟩ := ht
    cases m with
    | atMake => simp [mainStep] at hm
    | atGo => simp [mainStep] at hm
    | atIf => simp [mainStep, hinvalid] at hm
    | atRecv => simp [Inv, hinvalid] at hinv
    | atReturnNil r => simp [mainStep] at hm
    | returned e =>
        cases e with
        | none => simp [Inv, hinvalid] at hinv
        | some e =>
            simp only [Inv, WorkerInv] at hinv
            obtain ⟨_, he, hw3⟩ := hinv
            subst he
            refine ⟨rfl, ?_⟩
            rcases hw3 with ⟨h1, h2⟩ | ⟨h1, h2⟩ | ⟨h1, h2, h3⟩
            · subst h1 h2
              simp [workerStep] at hw
            · exact hblocked _ hs ⟨_, h1⟩
            · omega

/-- C2, amended, at the item `{ID: 1, Invalid: true}` of TestLeakyHandleRequest. -/
theorem LeakyHandleRequest_invalid_leaks_witness :
    (∀ s, Reachable (LeakyHandleRequest ⟨1, true⟩) s → s.worker ≠ .exited) ∧
    (∀ s, Reachable (LeakyHandleRequest ⟨1, true⟩) s →
      Terminal (LeakyHandleRequest ⟨1, true⟩) s →
      s.main = .returned (some "invalid item") ∧
      WorkerBlockedAtSend (LeakyHandleRequest ⟨1, true⟩) s) :=
  ⟨(LeakyHandleRequest_invalid_leaks ⟨1, true⟩ rfl).1,
   (LeakyHandleRequest_invalid_leaks ⟨1, true⟩ rfl).2.2.2.2⟩

/-- C3: in FixedHandleRequest, for every Item, whenever the spawned goroutine is
at `ch <- result` the buffer of the capacity-1 channel is empty, so its send
step is enabled, stores the value and lets the goroutine exit; every execution
is finite and can only stop once the goroutine has exited; on the early-return
path the caller never receives; and the goroutine does reach its send. -/
theorem FixedHandleRequest_send_never_blocks (item : Item) :
    (∀ s v, Reachable (FixedHandleRequest item) s → s.worker = .atSend v →
      s.buf = [] ∧
      workerStep 1 item s = [{ s with worker := .exited, buf := [v] }] ∧
      { s with worker := .exited, buf := [v] } ∈ (FixedHandleRequest item).next s) ∧
    (∀ f, ¬ InfiniteRun (FixedHandleRequest item) f) ∧
    (∀ s, Reachable (FixedHandleRequest item) s → Terminal (FixedHandleRequest item) s →
      s.worker = .exited) ∧
    (item.Invalid = true → ∀ s, Reachable (FixedHandleRequest item) s →
      s.main ≠ .atRecv ∧ ∀ r, s.main ≠ .atReturnNil r) ∧
    (∃ s, Reachable (FixedHandleRequest item) s ∧
      s.worker = .atSend (expensiveComputation item)) := by
  have hstart : Reachable (FixedHandleRequest item) ⟨.atIf, .atCompute, []⟩ :=
    Reachable.exec [0, 0] Reachable.init rfl
  have hsend : Reachable (FixedHandleRequest item)
      ⟨.atIf, .atSend (expensiveComputation item), []⟩ :=
    Reachable.step hstart (by simp [FixedHandleRequest, handleRequest, workerStep])
  refine ⟨?_, handleRequest_no_infiniteRun 1 item, ?_, ?_, ⟨_, hsend, rfl⟩⟩
  · intro s v hs hv
    have hinv := handleRequest_inv_of_reachable hs
    obtain ⟨m, w, b⟩ := s
    simp only at hv
    subst hv
    have hb : b = [] := by
      cases m with
      | returned e => cases e <;> simp_all [Inv, WorkerInv]
      | _ => simp_all [Inv, WorkerInv]
    subst hb
    simp [FixedHandleRequest, handleRequest, workerStep, chanSend]
  · intro s hs ht
    exact (terminal_of_buffered 1 (by decide) item s hs ht).2
  · intro hinvalid s hs
    have hinv := handleRequest_inv_of_reachable hs
    obtain ⟨m, w, b⟩ := s
    cases m <;> simp_all [Inv]

end channel

/-! ## Package `false_positive` -/

namespace false_positive

theorem twoGoroutines_rank_decreases (s t : State) (h : t ∈ TwoGoroutinesCommunicating.next s) :
    t.rank < s.rank := by
  obtain ⟨m, g2, g3, b⟩ := s
  simp only [TwoGoroutinesCommunicating, List.mem_append] at h
  rcases h with (h | h) | h
  · cases m <;> simp [mainStep] at h <;> subst h <;>
      cases g2 <;> cases g3 <;> simp [State.rank]
  · cases g2 <;> simp only [g2Step, List.not_mem_nil] at h
    split at h <;> simp at h
    subst h
    cases m <;> cases g3 <;> simp [State.rank] <;> split <;> simp
  · cases g3 <;> simp [g3Step, chanSend] at h

theorem twoGoroutines_inv_step (s t : State) (hs : Inv s) (h : t ∈ TwoGoroutinesCommunicating.next s) :
    Inv t := by
  obtain ⟨m, g2, g3, b⟩ := s
  obtain ⟨hb, hs⟩ := hs
  simp only at hb
  subst hb
  simp only [TwoGoroutinesCommunicating, List.mem_append] at h
  rcases h with (h | h) | h
  · cases m <;> simp [mainStep] at h <;> subst h <;> simp_all [Inv]
  · cases g2 <;> simp only [g2Step, List.not_mem_nil] at h
    cases g3 <;> simp [chanRecv, G3Pc.offer] at h
    subst h
    cases m <;> simp_all [Inv]
  · cases g3 <;> simp [g3Step, chanSend] at h

theorem twoGoroutines_inv_of_reachable {s : State} (h : Reachable TwoGoroutinesCommunicating s) : Inv s :=
  Reachable.invariant Inv (by simp [Inv, TwoGoroutinesCommunicating]) twoGoroutines_inv_step h

/-- C6: in TwoGoroutinesCommunicating the receiver G2 and the sender G3 always
synchronize.  No reachable state in which G2 or G3 waits on the channel is
stuck (some step is enabled there), no execution runs forever, an execution can
only stop once the call has returned and both G2 and G3 have exited, and such a
final state is reachable. -/
theorem TwoGoroutinesCommunicating_no_leak :
    (∀ s, Reachable TwoGoroutinesCommunicating s → SomeBlocked s →
      ¬ Terminal TwoGoroutinesCommunicating s) ∧
    (∀ f, ¬ InfiniteRun TwoGoroutinesCommunicating f) ∧
    (∀ s, Reachable TwoGoroutinesCommunicating s → Terminal TwoGoroutinesCommunicating s →
      s.main = .returned ∧ s.g2 = .exited ∧ s.g3 = .exited) ∧
    (∃ s, Reachable TwoGoroutinesCommunicating s ∧ Terminal TwoGoroutinesCommunicating s) := by
  have hterm : ∀ s, Reachable TwoGoroutinesCommunicating s →
      Terminal TwoGoroutinesCommunicating s →
      s.main = .returned ∧ s.g2 = .exited ∧ s.g3 = .exited := by
    intro s hs ht
    obtain ⟨hb, hinv⟩ := twoGoroutines_inv_of_reachable hs
    obtain ⟨m, g2, g3, b⟩ := s
    simp only at hb
    subst hb
    simp only [Terminal, TwoGoroutinesCommunicating, List.append_eq_nil] at ht
    obtain ⟨⟨hm, h2⟩, _⟩ := ht
    cases m with
    | atMake => simp [mainStep] at hm
    | atGoG2 => simp [mainStep] at hm
    | atGoG3 => simp [mainStep] at hm
    | returned =>
        simp only at hinv
        rcases hinv with ⟨h1, h3⟩ | ⟨h1, h3⟩
        · subst h1 h3
          simp [g2Step, chanRecv, G3Pc.offer] at h2
        · exact ⟨rfl, h1, h3⟩
  refine ⟨?_, no_infiniteRun_of_rank _ State.rank twoGoroutines_rank_decreases, hterm, ?_⟩
  · intro s hs hblocked ht
    obtain ⟨_, h2, h3⟩ := hterm s hs ht
    rcases hblocked with h | h
    · rw [h2] at h; cases h
    · rw [h3] at h; cases h
  · exact ⟨⟨.returned, .exited, .exited, []⟩,
      Reachable.exec [0, 0, 0, 0] Reachable.init (by decide), by
        simp [Terminal, TwoGoroutinesCommunicating, mainStep, g2Step, g3Step]⟩

end false_positive

/-! ## Package `timeout` -/

namespace timeout

theorem fetchWithTimeout_inv_init (cap : Nat) (fetch : Item → Option Result) (ctx0 : Option CtxErr)
    (item : Item) : Inv cap (fetch item) (fetchWithTimeout cap fetch ctx0 item).init := by
  simp [Inv, fetchWithTimeout]

theorem fetchWithTimeout_inv_step (cap : Nat) (fetch : Item → Option Result) (ctx0 : Option CtxErr)
    (item : Item) (s t : State) (hs : Inv cap (fetch item) s)
    (h : t ∈ (fetchWithTimeout cap fetch ctx0 item).next s) : Inv cap (fetch item) t := by
  obtain ⟨m, w, b, c⟩ := s
  simp only [fetchWithTimeout, List.mem_append] at h
  rcases h with (h | h) | h
  · cases m with
    | atMake => simp_all [Inv, mainStep]
    | atGo => simp_all [Inv, mainStep, WorkerInv]
    | atSelect =>
        simp only [Inv, WorkerInv] at hs
        rcases hs with ⟨hw, hb⟩ | ⟨hw, hb⟩ | ⟨hw, hb, hc⟩ <;> subst hw hb
        · cases c <;>
            simp [mainStep, recvCase, doneCase, chanRecv, WorkerPc.offer] at h <;>
            subst h <;> simp [Inv, WorkerInv]
        · by_cases hc : cap = 0 <;> cases c <;>
            simp [mainStep, recvCase, doneCase, chanRecv, WorkerPc.offer, hc] at h
          · subst h; simp [Inv]
          · rcases h with h | h <;> subst h <;> simp [Inv, WorkerInv]
          · subst h; simp [Inv]
          · subst h; simp [Inv, WorkerInv]
        · cases c <;>
            simp [mainStep, recvCase, doneCase, chanRecv, WorkerPc.offer] at h
          · subst h; simp [Inv]
          · rcases h with h | h <;> subst h <;> simp [Inv, WorkerInv, hc]
    | parked => simp [mainStep] at h
    | gotResult r => simp_all [Inv, mainStep]
    | gotDone => simp_all [Inv, mainStep, WorkerInv]
    | returned res err => simp [mainStep] at h
  · cases w with
    | notStarted => simp [workerStep] at h
    | atFetch =>
        simp only [workerStep, List.mem_singleton] at h
        subst h
        cases m <;> simp_all [Inv, WorkerInv]
    | atSend v =>
        by_cases hp : m = .parked
        · subst hp
          simp [workerStep] at h
          subst h
          simp_all [Inv]
        · by_cases hc : b.length < cap
          · simp only [workerStep, hp, if_false, chanSend, hc, if_true,
              List.mem_singleton] at h
            subst h
            cases m <;> simp_all [Inv, WorkerInv]
          · simp [workerStep, hp, chanSend, hc] at h
    | exited => simp [workerStep] at h
  · cases c with
    | some e => simp [ctxStep] at h
    | none =>
        simp only [ctxStep, List.map_cons, List.map_nil, List.mem_cons,
          List.mem_singleton, List.not_mem_nil, or_false] at h
        rcases h with h | h <;> subst h <;> cases m <;> simp_all [Inv, WorkerInv]

theorem fetchWithTimeout_inv_of_reachable {cap : Nat} {fetch : Item → Option Result} {ctx0 : Option CtxErr}
    {item : Item} {s : State} (h : Reachable (fetchWithTimeout cap fetch ctx0 item) s) :
    Inv cap (fetch item) s :=
  Reachable.invariant (Inv cap (fetch item)) (fetchWithTimeout_inv_init cap fetch ctx0 item)
    (fetchWithTimeout_inv_step cap fetch ctx0 item) h

/-- Once the `select` has taken the receive case with value `r`, the call can
only go on to `return r, nil`. -/
theorem after_gotResult (cap : Nat) (fetch : Item → Option Result) (ctx0 : Option CtxErr)
    (item : Item) (t : State) (r : Option Result) (ht : t.main = .gotResult r) (u : State)
    (hu : Reachable ((fetchWithTimeout cap fetch ctx0 item).startingAt t) u) :
    u.main = .gotResult r ∨ u.main = .returned r none := by
  refine Reachable.invariant
    (fun u : State => u.main = .gotResult r ∨ u.main = .returned r none) (Or.inl ht) ?_ hu
  intro a b ha hb
  obtain ⟨m, w, bf, c⟩ := a
  simp only [System.startingAt, fetchWithTimeout, List.mem_append] at hb
  simp only at ha
  rcases hb with (hb | hb) | hb
  · rcases ha with ha | ha <;> subst ha <;> simp [mainStep] at hb
    subst hb; simp
  · have hm : b.main = m := by
      cases w with
      | notStarted => simp [workerStep] at hb
      | atFetch => simp [workerStep] at hb; subst hb; rfl
      | atSend v =>
          have hp : m ≠ .parked := by rcases ha with ha | ha <;> subst ha <;> simp
          simp only [workerStep, hp, if_false] at hb
          split at hb <;> simp at hb
          subst hb; rfl
      | exited => simp [workerStep] at hb
    rw [hm]; exact ha
  · have hm : b.main = m := by
      have hp : m ≠ .parked := by rcases ha with ha | ha <;> subst ha <;> simp
      cases c with
      | some e => simp [ctxStep] at hb
      | none =>
          simp [ctxStep, hp] at hb
          rcases hb with hb | hb <;> subst hb <;> rfl
    rw [hm]; exact ha

/-- Once the `select` has taken the `ctx.Done()` case, the context error stays
what it is and the call can only go on to `return nil, ctx.Err()`. -/
theorem after_gotDone (cap : Nat) (fetch : Item → Option Result) (ctx0 : Option CtxErr)
    (item : Item) (t : State) (e : CtxErr) (ht : t.main = .gotDone)
    (hc : t.ctxErr = some e) (u : State)
    (hu : Reachable ((fetchWithTimeout cap fetch ctx0 item).startingAt t) u) :
    u.ctxErr = some e ∧ (u.main = .gotDone ∨ u.main = .returned none (some e)) := by
  refine Reachable.invariant
    (fun u : State =>
      u.ctxErr = some e ∧ (u.main = .gotDone ∨ u.main = .returned none (some e)))
    ⟨hc, Or.inl ht⟩ ?_ hu
  intro a b ha hb
  obtain ⟨m, w, bf, c⟩ := a
  simp only [System.startingAt, fetchWithTimeout, List.mem_append] at hb
  obtain ⟨hc, ha⟩ := ha
  simp only at ha hc
  subst hc
  rcases hb with (hb | hb) | hb
  · rcases ha with ha | ha <;> subst ha <;> simp [mainStep] at hb
    subst hb; simp
  · have hm : b.main = m ∧ b.ctxErr = some e := by
      cases w with
      | notStarted => simp [workerStep] at hb
      | atFetch => simp [workerStep] at hb; subst hb; exact ⟨rfl, rfl⟩
      | atSend v =>
          have hp : m ≠ .parked := by rcases ha with ha | ha <;> subst ha <;> simp
          simp only [workerStep, hp, if_false] at hb
          split at hb <;> simp at hb
          subst hb; exact ⟨rfl, rfl⟩
      | exited => simp [workerStep] at hb
    rw [hm.1, hm.2]; exact ⟨rfl, ha⟩
  · simp [ctxStep] at hb

/-- The receive case of the `select` delivers the fetched result, and the call
then returns it with a nil error. -/
theorem select_receive (cap : Nat) (fetch : Item → Option Result) (ctx0 : Option CtxErr)
    (item : Item) (s t : State) (hs : Reachable (fetchWithTimeout cap fetch ctx0 item) s)
    (hst : t ∈ (fetchWithTimeout cap fetch ctx0 item).next s)
    (hrecv : ∃ r, t.main = .gotResult r) :
    t.main = .gotResult (fetch item) ∧
    { t with main := .returned (fetch item) none } ∈
      (fetchWithTimeout cap fetch ctx0 item).next t ∧
    (∀ u res err, Reachable ((fetchWithTimeout cap fetch ctx0 item).startingAt t) u →
      u.main = .returned res err → res = fetch item ∧ err = none) := by
  have hinv := fetchWithTimeout_inv_step cap fetch ctx0 item s t (fetchWithTimeout_inv_of_reachable hs) hst
  obtain ⟨r, hr⟩ := hrecv
  obtain ⟨m, w, b, c⟩ := t
  simp only at hr
  subst hr
  simp only [Inv] at hinv
  obtain ⟨hr, _, _⟩ := hinv
  subst hr
  refine ⟨rfl, by simp [fetchWithTimeout, mainStep], ?_⟩
  intro u res err hu hret
  rcases after_gotResult cap fetch ctx0 item _ (fetch item) rfl u hu with h | h
  · rw [h] at hret; cases hret
  · rw [h] at hret; cases hret; exact ⟨rfl, rfl⟩

theorem fetchWithTimeout_rank_decreases (cap : Nat) (fetch : Item → Option Result)
    (ctx0 : Option CtxErr) (item : Item) (s t : State)
    (h : t ∈ (fetchWithTimeout cap fetch ctx0 item).next s) : t.rank < s.rank := by
  obtain ⟨m, w, b, c⟩ := s
  simp only [fetchWithTimeout, List.mem_append] at h
  rcases h with (h | h) | h
  · cases m with
    | atMake =>
        simp [mainStep] at h; subst h
        simp [State.rank, MainPc.rank]
    | atGo =>
        simp [mainStep] at h; subst h
        cases w <;> simp [State.rank, MainPc.rank, WorkerPc.rank]
    | atSelect =>
        simp only [mainStep] at h
        split at h
        · simp at h; subst h
          simp [State.rank, MainPc.rank]
        · simp only [List.mem_append, recvCase, doneCase] at h
          rcases h with h | h
          · split at h <;> simp at h
            subst h
            rename_i v b1 rel _
            cases rel <;> cases w <;> simp [State.rank, MainPc.rank, WorkerPc.rank]
          · split at h <;> simp at h
            subst h
            simp [State.rank, MainPc.rank]
    | parked => simp [mainStep] at h
    | gotResult r =>
        simp [mainStep] at h; subst h
        simp [State.rank, MainPc.rank]
    | gotDone =>
        simp [mainStep] at h; subst h
        simp [State.rank, MainPc.rank]
    | returned res err => simp [mainStep] at h
  · cases w with
    | notStarted => simp [workerStep] at h
    | atFetch =>
        simp [workerStep] at h; subst h
        simp [State.rank, WorkerPc.rank]
    | atSend v =>
        by_cases hp : m = .parked
        · subst hp
          simp [workerStep] at h; subst h
          simp [State.rank, MainPc.rank, WorkerPc.rank]
        · simp only [workerStep, hp, if_false] at h
          split at h <;> simp at h
          subst h
          simp [State.rank, WorkerPc.rank]
    | exited => simp [workerStep] at h
  · cases c with
    | some e => simp [ctxStep] at h
    | none =>
        by_cases hp : m = .parked
        · subst hp
          simp [ctxStep] at h
          rcases h with h | h <;> subst h <;> simp [State.rank, MainPc.rank] <;> omega
        · simp [ctxStep, hp] at h
          rcases h with h | h <;> subst h <;> simp [State.rank]

/-- An execution can only stop once the call has returned. -/
theorem terminal_returned (cap : Nat) (fetch : Item → Option Result) (ctx0 : Option CtxErr)
    (item : Item) (s : State) (hs : Reachable (fetchWithTimeout cap fetch ctx0 item) s)
    (ht : Terminal (fetchWithTimeout cap fetch ctx0 item) s) :
    ∃ res err, s.main = .returned res err := by
  have hinv := fetchWithTimeout_inv_of_reachable hs
  obtain ⟨m, w, b, c⟩ := s
  simp only [Terminal, fetchWithTimeout, List.append_eq_nil] at ht
  obtain ⟨⟨hm, _⟩, hc⟩ := ht
  cases m with
  | atMake => simp [mainStep] at hm
  | atGo => simp [mainStep] at hm
  | atSelect =>
      simp only [mainStep] at hm
      split at hm
      · simp at hm
      · rename_i hne
        exact absurd hm hne
  | parked =>
      simp only [Inv] at hinv
      obtain ⟨hc0, _⟩ := hinv
      subst hc0
      simp [ctxStep] at hc
  | gotResult r => simp [mainStep] at hm
  | gotDone => simp [mainStep] at hm
  | returned res err => exact ⟨res, err, rfl⟩

/-- While the context is not done, the call has either returned the fetched
result with a nil error or the program itself (caller or goroutine) can take a
step. -/
theorem progress_while_not_done (cap : Nat) (fetch : Item → Option Result)
    (ctx0 : Option CtxErr) (item : Item) (s : State)
    (hs : Reachable (fetchWithTimeout cap fetch ctx0 item) s) (hc : s.ctxErr = none) :
    s.main = .returned (fetch item) none ∨
    ∃ t, t ∈ (fetchWithTimeout cap fetch ctx0 item).next s ∧ t.ctxErr = none := by
  have hinv := fetchWithTimeout_inv_of_reachable hs
  obtain ⟨m, w, b, c⟩ := s
  simp only at hc
  subst hc
  cases m with
  | atMake =>
      exact Or.inr ⟨⟨.atGo, w, [], none⟩, by simp [fetchWithTimeout, mainStep], rfl⟩
  | atGo =>
      exact Or.inr ⟨⟨.atSelect, .atFetch, b, none⟩, by simp [fetchWithTimeout, mainStep], rfl⟩
  | atSelect =>
      right
      cases hr : chanRecv cap b w.offer with
      | none =>
          exact ⟨⟨.parked, w, b, none⟩,
            by simp [fetchWithTimeout, mainStep, recvCase, doneCase, hr], rfl⟩
      | some x =>
          obtain ⟨v, b1, rel⟩ := x
          exact ⟨⟨.gotResult v, if rel then .exited else w, b1, none⟩,
            by simp [fetchWithTimeout, mainStep, recvCase, doneCase, hr], rfl⟩
  | parked =>
      right
      simp only [Inv] at hinv
      obtain ⟨_, _, hw⟩ := hinv
      rcases hw with hw | hw <;> subst hw
      · exact ⟨⟨.parked, .atSend (fetch item), b, none⟩,
          by simp [fetchWithTimeout, workerStep], rfl⟩
      · exact ⟨⟨.gotResult (fetch item), .exited, b, none⟩,
          by simp [fetchWithTimeout, workerStep], rfl⟩
  | gotResult r =>
      exact Or.inr ⟨⟨.returned r none, w, b, none⟩, by simp [fetchWithTimeout, mainStep], rfl⟩
  | gotDone => simp [Inv] at hinv
  | returned res err =>
      left
      simp only [Inv] at hinv
      rcases hinv with ⟨h1, h2, _⟩ | ⟨_, _, h3, _⟩
      · rw [h1, h2]
      · exact absurd rfl h3

/-- With a context that is not done at the call, the run the tests exercise
exists: the caller parks in the `select`, the goroutine fetches and hands its
result to the parked caller, and the call returns it with a nil error. -/
theorem parked_handoff_run (cap : Nat) (fetch : Item → Option Result) (item : Item) :
    Reachable (fetchWithTimeout cap fetch none item)
      ⟨.parked, .atSend (fetch item), [], none⟩ ∧
    (⟨.gotResult (fetch item), .exited, [], none⟩ : State) ∈
      (fetchWithTimeout cap fetch none item).next ⟨.parked, .atSend (fetch item), [], none⟩ ∧
    (⟨.returned (fetch item) none, .exited, [], none⟩ : State) ∈
      (fetchWithTimeout cap fetch none item).next ⟨.gotResult (fetch item), .exited, [], none⟩ := by
  refine ⟨?_, by simp [fetchWithTimeout, mainStep, workerStep], by simp [fetchWithTimeout, mainStep]⟩
  have h1 : Reachable (fetchWithTimeout cap fetch none item) ⟨.atSelect, .atFetch, [], none⟩ :=
    Reachable.exec [0, 0] Reachable.init rfl
  have h2 : Reachable (fetchWithTimeout cap fetch none item) ⟨.parked, .atFetch, [], none⟩ :=
    Reachable.step h1
      (by simp [fetchWithTimeout, mainStep, recvCase, doneCase, chanRecv, WorkerPc.offer])
  exact Reachable.step h2 (by simp [fetchWithTimeout, mainStep, workerStep])

/-- C4: for every Item and context, for LeakyFetchWithTimeout and for
FixedFetchWithTimeout alike: (1) on every run in which the `select` receives
the fetched result while the context is not done, the received pointer is
non-nil with Value equal to Go's `item.ID * 10`, the step `return result, nil`
is enabled, and whenever the call has returned it has returned exactly that
result with a nil error; (2) no execution runs forever and (3) an execution can
only stop once the call has returned; (4) as long as the context is not done,
the call has either returned that result with a nil error or the program itself
can take a step that leaves the context not done; (5) with a context not done at
the call, the run in which the caller parks in the `select` and the goroutine
hands over its result exists and ends in the return of that result with a nil
error; (6) Go's product is the mathematical one whenever that fits a 64-bit
int. -/
theorem FetchWithTimeout_success (ctx0 : Option CtxErr) (item : Item) (T : System State)
    (hT : T = LeakyFetchWithTimeout ctx0 item ∨ T = FixedFetchWithTimeout ctx0 item) :
    (∀ s t, Reachable T s → t ∈ T.next s → s.main.inSelect = true → s.ctxErr = none →
      (∃ r, t.main = .gotResult r) →
      t.main = .gotResult (some ⟨goMul item.ID 10⟩) ∧
      { t with main := .returned (some ⟨goMul item.ID 10⟩) none } ∈ T.next t ∧
      (∀ u res err, Reachable (T.startingAt t) u → u.main = .returned res err →
        res = some ⟨goMul item.ID 10⟩ ∧ err = none)) ∧
    (∀ f, ¬ InfiniteRun T f) ∧
    (∀ s, Reachable T s → Terminal T s → ∃ res err, s.main = .returned res err) ∧
    (∀ s, Reachable T s → s.ctxErr = none →
      s.main = .returned (some ⟨goMul item.ID 10⟩) none ∨
      ∃ t, t ∈ T.next s ∧ t.ctxErr = none) ∧
    (ctx0 = none →
      Reachable T ⟨.parked, .atSend (some ⟨goMul item.ID 10⟩), [], none⟩ ∧
      (⟨.gotResult (some ⟨goMul item.ID 10⟩), .exited, [], none⟩ : State) ∈
        T.next ⟨.parked, .atSend (some ⟨goMul item.ID 10⟩), [], none⟩ ∧
      (⟨.returned (some ⟨goMul item.ID 10⟩) none, .exited, [], none⟩ : State) ∈
        T.next ⟨.gotResult (some ⟨goMul item.ID 10⟩), .exited, [], none⟩) ∧
    (-(2 ^ 63) ≤ item.ID * 10 → item.ID * 10 < 2 ^ 63 → goMul item.ID 10 = item.ID * 10) := by
  have harith : -(2 ^ 63) ≤ item.ID * 10 → item.ID * 10 < 2 ^ 63 →
      goMul item.ID 10 = item.ID * 10 := by
    intro h1 h2
    simp only [goMul, wrapInt64]
    omega
  rcases hT with hT | hT <;> subst hT
  · refine ⟨?_, ?_, ?_, ?_, ?_, harith⟩
    · intro s t hs hst _ _ hrecv
      exact select_receive 0 fetchData ctx0 item s t hs hst hrecv
    · exact no_infiniteRun_of_rank _ State.rank
        (fetchWithTimeout_rank_decreases 0 fetchData ctx0 item)
    · exact terminal_returned 0 fetchData ctx0 item
    · exact progress_while_not_done 0 fetchData ctx0 item
    · intro h0
      subst h0
      exact parked_handoff_run 0 fetchData item
  · refine ⟨?_, ?_, ?_, ?_, ?_, harith⟩
    · intro s t hs hst _ _ hrecv
      exact select_receive 1 fetchDataFixed ctx0 item s t hs hst hrecv
    · exact no_infiniteRun_of_rank _ State.rank
        (fetchWithTimeout_rank_decreases 1 fetchDataFixed ctx0 item)
    · exact terminal_returned 1 fetchDataFixed ctx0 item
    · exact progress_while_not_done 1 fetchDataFixed ctx0 item
    · intro h0
      subst h0
      exact parked_handoff_run 1 fetchDataFixed item

/-- C4 at the item `{ID: 42}` of the tests with a context that is not done, for
both functions: the caller parks in the `select`, the goroutine hands over its
result, and the call returns the result 420 with a nil error; after that
hand-over every returned state carries exactly that result. -/
theorem FetchWithTimeout_success_witness :
    goMul 42 10 = 420 ∧
    (Reachable (LeakyFetchWithTimeout none ⟨42⟩)
        ⟨.parked, .atSend (some ⟨goMul 42 10⟩), [], none⟩ ∧
      (⟨.gotResult (some ⟨goMul 42 10⟩), .exited, [], none⟩ : State) ∈
        (LeakyFetchWithTimeout none ⟨42⟩).next
          ⟨.parked, .atSend (some ⟨goMul 42 10⟩), [], none⟩ ∧
      (⟨.returned (some ⟨goMul 42 10⟩) none, .exited, [], none⟩ : State) ∈
        (LeakyFetchWithTimeout none ⟨42⟩).next
          ⟨.gotResult (some ⟨goMul 42 10⟩), .exited, [], none⟩) ∧
    (Reachable (FixedFetchWithTimeout none ⟨42⟩)
        ⟨.parked, .atSend (some ⟨goMul 42 10⟩), [], none⟩ ∧
      (⟨.gotResult (some ⟨goMul 42 10⟩), .exited, [], none⟩ : State) ∈
        (FixedFetchWithTimeout none ⟨42⟩).next
          ⟨.parked, .atSend (some ⟨goMul 42 10⟩), [], none⟩ ∧
      (⟨.returned (some ⟨goMul 42 10⟩) none, .exited, [], none⟩ : State) ∈
        (FixedFetchWithTimeout none ⟨42⟩).next
          ⟨.gotResult (some ⟨goMul 42 10⟩), .exited, [], none⟩) ∧
    (∀ u res err,
      Reachable ((FixedFetchWithTimeout none ⟨42⟩).startingAt
        ⟨.gotResult (some ⟨goMul 42 10⟩), .exited, [], none⟩) u →
      u.main = .returned res err → res = some ⟨goMul 42 10⟩ ∧ err = none) :=
  have hL := FetchWithTimeout_success none ⟨42⟩ (LeakyFetchWithTimeout none ⟨42⟩) (Or.inl rfl)
  have hF := FetchWithTimeout_success none ⟨42⟩ (FixedFetchWithTimeout none ⟨42⟩) (Or.inr rfl)
  have hFrun := hF.2.2.2.2.1 rfl
  ⟨by decide, hL.2.2.2.2.1 rfl, hFrun,
    (hF.1 _ _ hFrun.1 hFrun.2.1 rfl rfl ⟨_, rfl⟩).2.2⟩

/-- Every return of the call is either the fetched result with a nil error or a
nil result with the context's error, which is then non-nil. -/
theorem returned_shape (cap : Nat) (fetch : Item → Option Result) (ctx0 : Option CtxErr)
    (item : Item) (u : State) (res : Option Result) (err : Option CtxErr)
    (hu : Reachable (fetchWithTimeout cap fetch ctx0 item) u)
    (hret : u.main = .returned res err) :
    (res = fetch item ∧ err = none) ∨ (res = none ∧ err = u.ctxErr ∧ err ≠ none) := by
  have hinv := fetchWithTimeout_inv_of_reachable hu
  obtain ⟨m, w, b, c⟩ := u
  simp only at hret
  subst hret
  simp only [Inv] at hinv
  rcases hinv with ⟨h1, h2, _⟩ | ⟨h1, h2, h3, _⟩
  · exact Or.inl ⟨h1, h2⟩
  · exact Or.inr ⟨h1, h2, h2 ▸ h3⟩

/-- C5, the claim as stated fails: with the item `{ID: 42}` and a context whose
deadline expires while the goroutine is still fetching (nothing sent yet), the
goroutine can still complete its send before the caller enters the `select`;
both cases are then ready and the call may return the result 420 with a nil
error instead of `nil, ctx.Err()`. -/
theorem FixedFetchWithTimeout_done_before_send_returns_result :
    ∃ s u, Reachable (FixedFetchWithTimeout none ⟨42⟩) s ∧
      s.ctxErr = some .DeadlineExceeded ∧ s.worker = .atFetch ∧ s.buf = [] ∧
      Reachable ((FixedFetchWithTimeout none ⟨42⟩).startingAt s) u ∧
      u.ctxErr = some .DeadlineExceeded ∧
      u.main = .returned (some ⟨420⟩) none := by
  refine ⟨⟨.atSelect, .atFetch, [], some .DeadlineExceeded⟩,
    ⟨.returned (some ⟨420⟩) none, .exited, [], some .DeadlineExceeded⟩, ?_, rfl, rfl, rfl,
    ?_, rfl, rfl⟩
  · exact Reachable.exec [0, 0, 3] Reachable.init (by decide)
  · exact Reachable.exec [1, 1, 0, 0] Reachable.init (by decide)

/-- C5, amended: for every Item and context, on every run of
FixedFetchWithTimeout in which the `select` is resolved while the context is
done and the fetch goroutine has not yet sent its result, the case taken is
`ctx.Done()`, the step `return nil, ctx.Err()` is enabled, and whenever the call
has returned it has returned a nil result together with exactly the context's
error, which is non-nil and no longer changes.  On every run whatsoever the call
never returns both a result and an error: it returns either the non-nil fetched
result with a nil error or a nil result with the non-nil `ctx.Err()`. -/
theorem FixedFetchWithTimeout_done_case (ctx0 : Option CtxErr) (item : Item) (s t : State)
    (hs : Reachable (FixedFetchWithTimeout ctx0 item) s)
    (hst : t ∈ (FixedFetchWithTimeout ctx0 item).next s)
    (hsel : s.main.inSelect = true) (hleft : t.main.inSelect = false)
    (hdone : t.ctxErr ≠ none) (hnotsent : s.worker ≠ .exited) :
    t.main = .gotDone ∧
    { t with main := .returned none t.ctxErr } ∈ (FixedFetchWithTimeout ctx0 item).next t ∧
    (∀ u res err, Reachable ((FixedFetchWithTimeout ctx0 item).startingAt t) u →
      u.main = .returned res err →
      res = none ∧ err = u.ctxErr ∧ err = t.ctxErr ∧ err ≠ none) ∧
    (∀ u res err, Reachable (FixedFetchWithTimeout ctx0 item) u →
      u.main = .returned res err →
      (res ≠ none ∧ err = none) ∨ (res = none ∧ err = u.ctxErr ∧ err ≠ none)) := by
  have hmain : t.main = .gotDone := by
    have hinv := fetchWithTimeout_inv_of_reachable hs
    obtain ⟨m, w, b, c⟩ := s
    simp only at hnotsent
    simp only [FixedFetchWithTimeout, fetchWithTimeout, List.mem_append] at hst
    cases m <;> simp [MainPc.inSelect] at hsel
    · -- entering the select
      simp only [Inv, WorkerInv] at hinv
      rcases hst with (hst | hst) | hst
      · rcases hinv with ⟨hw, hb⟩ | ⟨hw, hb⟩ | ⟨hw, _⟩
        · subst hw hb
          cases c <;>
            simp [mainStep, recvCase, doneCase, chanRecv, WorkerPc.offer] at hst <;>
            subst hst
          · simp [MainPc.inSelect] at hleft
          · rfl
        · subst hw hb
          cases c <;>
            simp [mainStep, recvCase, doneCase, chanRecv, WorkerPc.offer] at hst <;>
            subst hst
          · simp [MainPc.inSelect] at hleft
          · rfl
        · exact absurd hw hnotsent
      · exfalso
        have hm : t.main = .atSelect := by
          cases w with
          | notStarted => simp [workerStep] at hst
          | atFetch => simp [workerStep] at hst; subst hst; rfl
          | atSend v =>
              simp only [workerStep] at hst
              split at hst
              · rename_i hp; simp at hp
              · split at hst <;> simp at hst
                subst hst; rfl
          | exited => simp [workerStep] at hst
        rw [hm] at hleft
        simp [MainPc.inSelect] at hleft
      · exfalso
        cases c with
        | some e => simp [ctxStep] at hst
        | none =>
            simp [ctxStep] at hst
            rcases hst with hst | hst <;> subst hst <;> simp [MainPc.inSelect] at hleft
    · -- parked in the select
      simp only [Inv] at hinv
      obtain ⟨hc, hb, hw⟩ := hinv
      subst hc hb
      rcases hst with (hst | hst) | hst
      · simp [mainStep] at hst
      · exfalso
        rcases hw with hw | hw <;> subst hw <;> simp [workerStep] at hst <;> subst hst <;>
          simp at hdone
      · simp [ctxStep] at hst
        rcases hst with hst | hst <;> subst hst <;> rfl
  obtain ⟨e, he⟩ : ∃ e, t.ctxErr = some e := by
    cases hc : t.ctxErr with
    | none => exact absurd hc hdone
    | some e => exact ⟨e, rfl⟩
  refine ⟨hmain, ?_, ?_, ?_⟩
  · obtain ⟨m, w, b, c⟩ := t
    simp only at hmain
    subst hmain
    simp [FixedFetchWithTimeout, fetchWithTimeout, mainStep]
  · intro u res err hu hret
    obtain ⟨hc, hm⟩ := after_gotDone 1 fetchDataFixed ctx0 item t e hmain he u hu
    rcases hm with hm | hm
    · rw [hm] at hret; cases hret
    · rw [hm] at hret
      cases hret
      simp [hc, he]
  · intro u res err hu hret
    rcases returned_shape 1 fetchDataFixed ctx0 item u res err hu hret with ⟨h1, h2⟩ | h
    · left
      subst h1
      exact ⟨by simp [fetchDataFixed], h2⟩
    · exact Or.inr h

/-- C5, amended, at the item `{ID: 42}` of TestFixedFetchWithTimeout_Timeout: the
caller is parked in the `select` while the goroutine is still fetching, the
deadline expires, and the call returns `nil, context.DeadlineExceeded`. -/
theorem FixedFetchWithTimeout_done_case_witness :
    Reachable (FixedFetchWithTimeout none ⟨42⟩) ⟨.parked, .atFetch, [], none⟩ ∧
    (⟨.gotDone, .atFetch, [], some .DeadlineExceeded⟩ : State) ∈
      (FixedFetchWithTimeout none ⟨42⟩).next ⟨.parked, .atFetch, [], none⟩ ∧
    (⟨.returned none (some .DeadlineExceeded), .atFetch, [], some .DeadlineExceeded⟩ : State) ∈
      (FixedFetchWithTimeout none ⟨42⟩).next ⟨.gotDone, .atFetch, [], some .DeadlineExceeded⟩ ∧
    (∀ u res err,
      Reachable ((FixedFetchWithTimeout none ⟨42⟩).startingAt
        ⟨.gotDone, .atFetch, [], some .DeadlineExceeded⟩) u →
      u.main = .returned res err →
      res = none ∧ err = u.ctxErr ∧ err = some .DeadlineExceeded ∧ err ≠ none) :=
  have hs : Reachable (FixedFetchWithTimeout none ⟨42⟩) ⟨.parked, .atFetch, [], none⟩ :=
    Reachable.exec [0, 0, 0] Reachable.init (by decide)
  have hst : (⟨.gotDone, .atFetch, [], some .DeadlineExceeded⟩ : State) ∈
      (FixedFetchWithTimeout none ⟨42⟩).next ⟨.parked, .atFetch, [], none⟩ := by
    decide
  have h := FixedFetchWithTimeout_done_case none ⟨42⟩ _ _ hs hst rfl rfl (by decide)
    (by decide)
  ⟨hs, hst, h.2.1, h.2.2.1⟩

end timeout

/-! ## Program `pprof_analysis` -/

namespace pprof_analysis

theorem mem_mapKeys_mapIncr (m : List (Str × Nat)) (x y : Str) :
    y ∈ mapKeys (mapIncr m x) ↔ y = x ∨ y ∈ mapKeys m := by
  induction m with
  | nil => simp [mapIncr, mapKeys]
  | cons p m ih =>
      obtain ⟨k, n⟩ := p
      by_cases hk : k = x
      · subst hk
        simp [mapIncr, mapKeys]
      · simp only [mapKeys] at ih
        simp only [mapIncr, hk, if_false, mapKeys, List.map_cons, List.mem_cons, ih]
        tauto

theorem nodup_mapKeys_mapIncr (m : List (Str × Nat)) (x : Str) (h : (mapKeys m).Nodup) :
    (mapKeys (mapIncr m x)).Nodup := by
  induction m with
  | nil => simp [mapIncr, mapKeys]
  | cons p m ih =>
      obtain ⟨k, n⟩ := p
      have hk' : k ∉ mapKeys m ∧ (mapKeys m).Nodup := by
        simpa [mapKeys] using h
      by_cases hk : k = x
      · subst hk
        simpa [mapIncr, mapKeys] using h
      · have hmem := mem_mapKeys_mapIncr m x k
        have hnot : k ∉ mapKeys (mapIncr m x) := by
          rw [hmem]
          rintro (h1 | h1)
          · exact hk h1
          · exact hk'.1 h1
        have hnd := ih hk'.2
        simp only [mapKeys] at hnot hnd
        simp only [mapIncr, hk, if_false, mapKeys, List.map_cons, List.nodup_cons]
        exact ⟨hnot, hnd⟩

theorem mapGet_mapIncr (m : List (Str × Nat)) (x y : Str) :
    mapGet (mapIncr m x) y = mapGet m y + if x = y then 1 else 0 := by
  induction m with
  | nil => simp [mapIncr, mapGet]
  | cons p m ih =>
      obtain ⟨k, n⟩ := p
      by_cases hk : k = x
      · subst hk
        by_cases hy : k = y <;> simp [mapIncr, mapGet, hy]
      · by_cases hy : k = y
        · subst hy
          simp [mapIncr, mapGet, hk, Ne.symm hk]
        · simp [mapIncr, mapGet, hk, hy, ih]

theorem sum_mapIncr (m : List (Str × Nat)) (x : Str) :
    ((mapIncr m x).map Prod.snd).sum = (m.map Prod.snd).sum + 1 := by
  induction m with
  | nil => simp [mapIncr]
  | cons p m ih =>
      obtain ⟨k, n⟩ := p
      by_cases hk : k = x
      · simp [mapIncr, hk]
        omega
      · simp [mapIncr, hk, ih]
        omega

theorem occurrences_cons (a : Str) (xs : List Str) (x : Str) :
    occurrences (a :: xs) x = occurrences xs x + if a = x then 1 else 0 := by
  by_cases h : a = x <;> simp [occurrences, List.filter_cons, h]

theorem occurrences_eq_zero (xs : List Str) (x : Str) (h : x ∉ xs) : occurrences xs x = 0 := by
  induction xs with
  | nil => simp [occurrences]
  | cons a xs ih =>
      have ha : ¬ a = x := fun hax => h (hax ▸ List.mem_cons_self a xs)
      have hx : x ∉ xs := fun hm => h (List.mem_cons_of_mem a hm)
      rw [occurrences_cons, ih hx]
      simp [ha]

theorem occurrences_eq_one (xs : List Str) (x : Str) (hn : xs.Nodup) (hm : x ∈ xs) :
    occurrences xs x = 1 := by
  induction xs with
  | nil => cases hm
  | cons a xs ih =>
      obtain ⟨ha, hn'⟩ := List.nodup_cons.mp hn
      rw [occurrences_cons]
      by_cases hax : a = x
      · subst hax
        simp [occurrences_eq_zero xs a ha]
      · have hx : x ∈ xs := by
          rcases List.mem_cons.mp hm with h | h
          · exact absurd h.symm hax
          · exact h
        simp [ih hn' hx, hax]

/-- What the loop `seen[loc]++` over `locs` does to a map `m`. -/
theorem foldl_mapIncr (locs : List Str) :
    ∀ m : List (Str × Nat), (mapKeys m).Nodup →
      (mapKeys (locs.foldl mapIncr m)).Nodup ∧
      (∀ y, y ∈ mapKeys (locs.foldl mapIncr m) ↔ y ∈ locs ∨ y ∈ mapKeys m) ∧
      (∀ y, mapGet (locs.foldl mapIncr m) y = mapGet m y + occurrences locs y) ∧
      ((locs.foldl mapIncr m).map Prod.snd).sum = (m.map Prod.snd).sum + locs.length := by
  induction locs with
  | nil => intro m h; simp [h, occurrences]
  | cons x xs ih =>
      intro m h
      obtain ⟨h1, h2, h3, h4⟩ := ih (mapIncr m x) (nodup_mapKeys_mapIncr m x h)
      refine ⟨h1, ?_, ?_, ?_⟩
      · intro y
        rw [List.foldl_cons, h2, mem_mapKeys_mapIncr, List.mem_cons]
        tauto
      · intro y
        rw [List.foldl_cons, h3, mapGet_mapIncr, occurrences_cons]
        omega
      · rw [List.foldl_cons, h4, sum_mapIncr, List.length_cons]
        omega

/-- The locations collected by the outer loop are those appended at the
iterations it runs, in order. -/
theorem foldl_loopBody_leakLocations (lines : List Str) (is : List Nat) :
    ∀ acc : Counts,
      (is.foldl (loopBody lines) acc).leakLocations =
        acc.leakLocations ++ is.filterMap (appendedAt lines) := by
  induction is with
  | nil => intro acc; simp
  | cons i is ih =>
      intro acc
      rw [List.foldl_cons, ih, List.filterMap_cons]
      simp only [loopBody, appendedAt]
      by_cases hs : Contains (lineAt lines i) "chan send".toList = true <;>
        by_cases hr : Contains (lineAt lines i) "chan receive".toList = true <;>
        simp only [hs, hr, if_true, if_false] <;>
        cases findLocation lines i <;> simp

/-- The send counter counts the lines containing "chan send" among those the
outer loop visits. -/
theorem foldl_loopBody_blockedOnSend (lines : List Str) (is : List Nat) :
    ∀ acc : Counts,
      (is.foldl (loopBody lines) acc).blockedOnSend =
        acc.blockedOnSend +
          is.countP (fun i => Contains (lineAt lines i) "chan send".toList) := by
  induction is with
  | nil => intro acc; simp
  | cons i is ih =>
      intro acc
      rw [List.foldl_cons, ih, List.countP_cons]
      simp only [loopBody]
      generalize Contains (lineAt lines i) "chan send".toList = bs
      generalize Contains (lineAt lines i) "chan receive".toList = br
      cases bs <;> cases br <;> simp <;> omega

/-- Visiting the indices `0 .. len-1` visits the lines in order. -/
theorem map_lineAt_range (lines : List Str) :
    (List.range lines.length).map (lineAt lines) = lines := by
  apply List.ext_getElem
  · simp
  · intro n h1 h2
    simp [lineAt, List.getD_eq_getElem?_getD, List.getElem?_eq_getElem h2]

theorem occurrences_filterMap (f : Nat → Option Str) (is : List Nat) (x : Str) :
    occurrences (is.filterMap f) x = (is.filter fun i => decide (f i = some x)).length := by
  induction is with
  | nil => simp [occurrences]
  | cons i is ih =>
      rw [List.filterMap_cons, List.filter_cons]
      cases hf : f i with
      | none => simp [ih]
      | some y =>
          simp only [occurrences_cons, ih]
          by_cases hy : y = x <;> simp [hy]

/-- The number of collected locations never exceeds the send counter. -/
theorem foldl_loopBody_length_le (lines : List Str) (is : List Nat) :
    ∀ acc : Counts, acc.leakLocations.length ≤ acc.blockedOnSend →
      (is.foldl (loopBody lines) acc).leakLocations.length ≤
        (is.foldl (loopBody lines) acc).blockedOnSend := by
  induction is with
  | nil => intro acc h; simpa using h
  | cons i is ih =>
      intro acc h
      rw [List.foldl_cons]
      apply ih
      simp only [loopBody]
      by_cases hs : Contains (lineAt lines i) "chan send".toList = true <;>
        by_cases hr : Contains (lineAt lines i) "chan receive".toList = true <;>
        simp only [hs, hr, if_true, if_false] <;>
        cases findLocation lines i <;> simp <;> omega

theorem find?_range' (p : Nat → Bool) (n : Nat) :
    ∀ a j : Nat, (List.range' a n).find? p = some j →
      a ≤ j ∧ j < a + n ∧ p j = true ∧ ∀ k, a ≤ k → k < j → p k = false := by
  induction n with
  | zero => intro a j h; simp at h
  | succ n ih =>
      intro a j h
      rw [List.range'_succ, List.find?_cons] at h
      cases hp : p a with
      | true =>
          rw [hp] at h
          simp only [Option.some.injEq] at h
          subst h
          exact ⟨le_rfl, by omega, hp, fun k h1 h2 => by omega⟩
      | false =>
          rw [hp] at h
          obtain ⟨h1, h2, h3, h4⟩ := ih (a + 1) j h
          refine ⟨by omega, by omega, h3, ?_⟩
          intro k hk1 hk2
          by_cases hka : k = a
          · subst hka; exact hp
          · exact h4 k (by omega) hk2

/-- What the inner loop finds: the first line among the four after `i` that
contains "pprof_analysis", trimmed. -/
theorem findLocation_eq_some (lines : List Str) (i : Nat) (loc : Str)
    (h : findLocation lines i = some loc) :
    ∃ j, i + 1 ≤ j ∧ j ≤ i + 4 ∧ j < lines.length ∧
      Contains (lineAt lines j) "pprof_analysis".toList = true ∧
      loc = TrimSpace (lineAt lines j) ∧
      ∀ k, i < k → k < j → Contains (lineAt lines k) "pprof_analysis".toList = false := by
  simp only [findLocation, List.find?_filter, Option.map_eq_some'] at h
  obtain ⟨j, hj, hloc⟩ := h
  obtain ⟨h1, h2, h3, h4⟩ := find?_range' _ 4 (i + 1) j hj
  simp only [Bool.and_eq_true, decide_eq_true_eq] at h3
  refine ⟨j, h1, by omega, h3.1, h3.2, hloc.symm, ?_⟩
  intro k hk1 hk2
  have hk := h4 k (by omega) hk2
  simp only [decide_eq_false_iff_not, decide_eq_true_eq, not_and] at hk
  exact Bool.eq_false_iff.mpr (hk (by omega))

theorem scanProfile_leakLocations (profile : Str) :
    (scanProfile profile).leakLocations =
      (List.range (splitLines profile).length).filterMap (appendedAt (splitLines profile)) := by
  simp [scanProfile, scanLines, foldl_loopBody_leakLocations]

/-- Iteration orders of one map give the same printed lines up to arrangement. -/
theorem reportLines_perm (c : Counts) (o1 o2 : List Str)
    (h1 : IterationOrder (buildSeen c.leakLocations) o1)
    (h2 : IterationOrder (buildSeen c.leakLocations) o2) :
    (reportLines c o1).Perm (reportLines c o2) := by
  have h : o1.Perm o2 := h1.trans h2.symm
  simp only [reportLines]
  split
  · exact h.map _
  · exact List.Perm.refl _

/-- C7, the claim as stated fails: on a profile with two goroutines blocked on
send at different locations, two admissible iteration orders of the map `seen`
print the two location lines in different orders. -/
theorem reportLines_order_not_determined :
    ∃ o1 o2,
      IterationOrder (buildSeen (scanProfile twoSiteProfile).leakLocations) o1 ∧
      IterationOrder (buildSeen (scanProfile twoSiteProfile).leakLocations) o2 ∧
      reportLines (scanProfile twoSiteProfile) o1 ≠
        reportLines (scanProfile twoSiteProfile) o2 := by
  refine ⟨mapKeys (buildSeen (scanProfile twoSiteProfile).leakLocations),
    (mapKeys (buildSeen (scanProfile twoSiteProfile).leakLocations)).reverse,
    List.Perm.refl _, List.reverse_perm _, ?_⟩
  decide

/-- C7, amended: for every goroutine profile text, two runs of the reporting step
on that text print the same "[n goroutines] location" lines, each the same
number of times, but possibly in a different order; the output is identical,
order included, whenever at most one distinct location was recorded. -/
theorem reportLines_same_up_to_order (profile : Str) (o1 o2 : List Str)
    (h1 : IterationOrder (buildSeen (scanProfile profile).leakLocations) o1)
    (h2 : IterationOrder (buildSeen (scanProfile profile).leakLocations) o2) :
    (reportLines (scanProfile profile) o1).Perm (reportLines (scanProfile profile) o2) ∧
    ((mapKeys (buildSeen (scanProfile profile).leakLocations)).length ≤ 1 →
      reportLines (scanProfile profile) o1 = reportLines (scanProfile profile) o2) := by
  refine ⟨reportLines_perm _ o1 o2 h1 h2, ?_⟩
  intro hlen
  have h : o1 = o2 := by
    unfold IterationOrder at h1 h2
    match hk : mapKeys (buildSeen (scanProfile profile).leakLocations), hlen with
    | [], _ =>
        rw [hk] at h1 h2
        rw [List.perm_nil.mp h1, List.perm_nil.mp h2]
    | [a], _ =>
        rw [hk] at h1 h2
        rw [List.perm_singleton.mp h1, List.perm_singleton.mp h2]
    | _ :: _ :: _, hl => simp at hl
  rw [h]

/-- C7, amended, on the profile with two locations and the two opposite
iteration orders. -/
theorem reportLines_same_up_to_order_witness :
    (reportLines (scanProfile twoSiteProfile)
      (mapKeys (buildSeen (scanProfile twoSiteProfile).leakLocations))).Perm
    (reportLines (scanProfile twoSiteProfile)
      (mapKeys (buildSeen (scanProfile twoSiteProfile).leakLocations)).reverse) :=
  (reportLines_same_up_to_order twoSiteProfile _ _ (List.Perm.refl _)
    (List.reverse_perm _)).1

theorem scanProfile_blockedOnSend (profile : Str) :
    (scanProfile profile).blockedOnSend =
      (splitLines profile).countP fun line => Contains line "chan send".toList := by
  have h := foldl_loopBody_blockedOnSend (splitLines profile)
    (List.range (splitLines profile).length) ⟨0, 0, []⟩
  simp only [scanProfile, scanLines, h, Nat.zero_add]
  conv_rhs => rw [← map_lineAt_range (splitLines profile)]
  rw [List.countP_map]
  rfl

/-- C8: for every profile text, analyzeGoroutineProfile groups the send-blocked
goroutines by location.  blockedOnSend is the number of lines of the profile
containing "chan send"; leakLocations lists, in line order, the location found
for each such line for which the inner loop finds one; the map `seen` built from
leakLocations has pairwise distinct keys, its keys are exactly the strings
occurring in leakLocations, each such string is a key exactly once with count
equal to its number of occurrences in leakLocations, which is the number of
"chan send" lines whose recorded location it is; the counts sum to
len(leakLocations), that length is at most blockedOnSend, and every recorded
location is the whitespace-trimmed text of a line of the profile. -/
theorem seen_groups_leakLocations (profile : Str) :
    (scanProfile profile).blockedOnSend =
      ((splitLines profile).countP fun line => Contains line "chan send".toList) ∧
    (scanProfile profile).leakLocations =
      (List.range (splitLines profile).length).filterMap
        (fun i =>
          if Contains (lineAt (splitLines profile) i) "chan send".toList then
            findLocation (splitLines profile) i
          else none) ∧
    (∀ loc, mapGet (buildSeen (scanProfile profile).leakLocations) loc =
      ((List.range (splitLines profile).length).filter fun i =>
        Contains (lineAt (splitLines profile) i) "chan send".toList &&
          decide (findLocation (splitLines profile) i = some loc)).length) ∧
    (mapKeys (buildSeen (scanProfile profile).leakLocations)).Nodup ∧
    (∀ loc, loc ∈ mapKeys (buildSeen (scanProfile profile).leakLocations) ↔
      loc ∈ (scanProfile profile).leakLocations) ∧
    (∀ loc, loc ∈ (scanProfile profile).leakLocations →
      occurrences (mapKeys (buildSeen (scanProfile profile).leakLocations)) loc = 1 ∧
      mapGet (buildSeen (scanProfile profile).leakLocations) loc =
        occurrences (scanProfile profile).leakLocations loc) ∧
    ((buildSeen (scanProfile profile).leakLocations).map Prod.snd).sum =
      (scanProfile profile).leakLocations.length ∧
    (scanProfile profile).leakLocations.length ≤ (scanProfile profile).blockedOnSend ∧
    (∀ loc, loc ∈ (scanProfile profile).leakLocations →
      ∃ j, j < (splitLines profile).length ∧ loc = TrimSpace (lineAt (splitLines profile) j)) := by
  obtain ⟨h1, h2, h3, h4⟩ :=
    foldl_mapIncr (scanProfile profile).leakLocations [] (by simp [mapKeys])
  have hmem : ∀ loc, loc ∈ mapKeys (buildSeen (scanProfile profile).leakLocations) ↔
      loc ∈ (scanProfile profile).leakLocations := by
    intro loc
    simp only [buildSeen, h2 loc]
    simp [mapKeys]
  have hget : ∀ loc, mapGet (buildSeen (scanProfile profile).leakLocations) loc =
      occurrences (scanProfile profile).leakLocations loc := by
    intro loc
    simp only [buildSeen, h3 loc]
    simp [mapGet]
  refine ⟨scanProfile_blockedOnSend profile, scanProfile_leakLocations profile, ?_, h1, hmem,
    ?_, ?_, ?_, ?_⟩
  · intro loc
    rw [hget, scanProfile_leakLocations, occurrences_filterMap]
    congr 1
    apply List.filter_congr
    intro i _
    simp only [appendedAt]
    by_cases hs : Contains (lineAt (splitLines profile) i) "chan send".toList = true
    · simp only [hs, if_true, Bool.true_and]
    · simp only [hs, if_false, Bool.false_and, Bool.false_eq_true]
      simp
  · intro loc hloc
    exact ⟨occurrences_eq_one _ loc h1 ((hmem loc).mpr hloc), hget loc⟩
  · simpa [buildSeen] using h4
  · exact foldl_loopBody_length_le _ _ _ (by simp)
  · intro loc hloc
    rw [scanProfile_leakLocations, List.mem_filterMap] at hloc
    obtain ⟨i, _, hi⟩ := hloc
    simp only [appendedAt] at hi
    split at hi
    · obtain ⟨j, _, _, hj, _, hl, _⟩ := findLocation_eq_some _ i loc hi
      exact ⟨j, hj, hl⟩
    · cases hi

/-! ### The runtime's profile format -/

theorem splitLines_append_newline (l rest : Str) (h : '\n' ∉ l) :
    splitLines (l ++ '\n' :: rest) = l :: splitLines rest := by
  induction l with
  | nil => simp [splitLines]
  | cons c l ih =>
      have hc : c ≠ '\n' := fun hc => h (hc ▸ List.mem_cons_self c l)
      have hl : '\n' ∉ l := fun hm => h (List.mem_cons_of_mem c hm)
      simp [splitLines, hc, ih hl]

theorem splitLines_unlines_append (ls : List Str) (rest : Str)
    (h : ∀ l ∈ ls, '\n' ∉ l) :
    splitLines (unlines ls ++ rest) = ls ++ splitLines rest := by
  induction ls with
  | nil => simp [unlines]
  | cons l ls ih =>
      have hl : '\n' ∉ l := h l (List.mem_cons_self l ls)
      have hls : ∀ x ∈ ls, '\n' ∉ x := fun x hx => h x (List.mem_cons_of_mem l hx)
      simp only [unlines, List.append_assoc, List.cons_append]
      rw [splitLines_append_newline l _ hl, ih hls]

/-- The lines of a rendered profile are the headers and stacks of its
goroutines, each followed by an empty line. -/
theorem splitLines_renderProfile (b : Block) (bs : List Block)
    (hwf : ∀ x ∈ b :: bs, x.WellFormed) :
    splitLines (renderProfile (b :: bs)) = bodyLines (b :: bs) := by
  induction bs generalizing b with
  | nil =>
      have hb := hwf b (List.mem_cons_self b [])
      have hlines : ∀ l ∈ b.header :: b.stack, '\n' ∉ l := by
        intro l hl
        rcases List.mem_cons.mp hl with h | h
        · exact h ▸ hb.1
        · exact (hb.2.2.2 l h).1
      have h := splitLines_unlines_append (b.header :: b.stack) [] hlines
      simp only [List.append_nil] at h
      simp [renderProfile, blockText, bodyLines, h, splitLines]
  | cons b2 bs ih =>
      have hb := hwf b (List.mem_cons_self b _)
      have hrest : ∀ x ∈ b2 :: bs, x.WellFormed :=
        fun x hx => hwf x (List.mem_cons_of_mem b hx)
      have hlines : ∀ l ∈ b.header :: b.stack, '\n' ∉ l := by
        intro l hl
        rcases List.mem_cons.mp hl with h | h
        · exact h ▸ hb.1
        · exact (hb.2.2.2 l h).1
      have h := splitLines_unlines_append (b.header :: b.stack)
        ('\n' :: renderProfile (b2 :: bs)) hlines
      have hnl : splitLines ('\n' :: renderProfile (b2 :: bs)) =
          [] :: splitLines (renderProfile (b2 :: bs)) := by
        simp [splitLines]
      rw [hnl, ih b2 hrest] at h
      have hr : renderProfile (b :: b2 :: bs) =
          unlines (b.header :: b.stack) ++ '\n' :: renderProfile (b2 :: bs) := rfl
      rw [hr, h]
      rfl

theorem lineAt_drop (lines : List Str) (i m : Nat) :
    lineAt (lines.drop i) m = lineAt lines (i + m) := by
  simp [lineAt, List.getElem?_drop]

theorem contains_nil_send : Contains [] "chan send".toList = false := by decide

theorem contains_nil_tag : Contains [] "pprof_analysis".toList = false := by decide

/-- A line containing "chan send" does not lie in a stretch of lines without
it. -/
theorem lineAt_append_of_no_send (pre rest : List Str)
    (hpre : ∀ l ∈ pre, Contains l "chan send".toList = false) (i : Nat)
    (h : Contains (lineAt (pre ++ rest) i) "chan send".toList = true) :
    ∃ m, i = pre.length + m := by
  by_cases hi : i < pre.length
  · exfalso
    have hline : lineAt (pre ++ rest) i = pre[i] := by
      simp [lineAt, List.getElem?_append_left hi, List.getElem?_eq_getElem hi]
    rw [hline, hpre _ (List.getElem_mem hi)] at h
    cases h
  · exact ⟨i - pre.length, by omega⟩

/-- In a well-formed profile a line containing "chan send" is the header of a
goroutine: from that line on the text reads header, stack, empty line, and what
follows the empty line does not begin with a line containing
"pprof_analysis". -/
theorem send_line_starts_block (blocks : List Block) (hwf : ∀ b ∈ blocks, b.WellFormed) :
    ∀ i, Contains (lineAt (bodyLines blocks) i) "chan send".toList = true →
      ∃ b, b ∈ blocks ∧ b.sendBlocked = true ∧ ∃ tail,
        (bodyLines blocks).drop i = b.header :: b.stack ++ [] :: tail ∧
        Contains (lineAt tail 0) "pprof_analysis".toList = false := by
  induction blocks with
  | nil =>
      intro i h
      simp [bodyLines, lineAt, contains_nil_send] at h
      exact absurd h (by decide)
  | cons b bs ih =>
      intro i h
      have hb := hwf b (List.mem_cons_self b bs)
      have hrest : ∀ x ∈ bs, x.WellFormed := fun x hx => hwf x (List.mem_cons_of_mem b hx)
      cases i with
      | zero =>
          refine ⟨b, List.mem_cons_self b bs, ?_, bodyLines bs, rfl, ?_⟩
          · simpa [bodyLines, lineAt, Block.sendBlocked] using h
          · cases bs with
            | nil => simp only [bodyLines, lineAt, List.getD_nil]; exact contains_nil_tag
            | cons b2 bs2 =>
                have hb2 := hwf b2 (List.mem_cons_of_mem b (List.mem_cons_self b2 bs2))
                simpa [bodyLines, lineAt] using hb2.2.1
      | succ i =>
          have hshift : lineAt (bodyLines (b :: bs)) (i + 1) =
              lineAt ((b.stack ++ [[]]) ++ bodyLines bs) i := by
            simp [bodyLines, lineAt]
          rw [hshift] at h
          have hpre : ∀ l ∈ b.stack ++ [[]], Contains l "chan send".toList = false := by
            intro l hl
            rcases List.mem_append.mp hl with hl | hl
            · exact (hb.2.2.2 l hl).2.2
            · simp only [List.mem_singleton] at hl
              rw [hl]
              exact contains_nil_send
          obtain ⟨m, hm⟩ := lineAt_append_of_no_send _ _ hpre i h
          subst hm
          have hline : lineAt ((b.stack ++ [[]]) ++ bodyLines bs) ((b.stack ++ [[]]).length + m) =
              lineAt (bodyLines bs) m := by
            rw [← lineAt_drop, List.drop_left]
          rw [hline] at h
          obtain ⟨b', hb', hsend, tail, hdrop, htail⟩ := ih hrest m h
          refine ⟨b', List.mem_cons_of_mem b hb', hsend, tail, ?_, htail⟩
          have : (bodyLines (b :: bs)).drop ((b.stack ++ [[]]).length + m + 1) =
              (bodyLines bs).drop m := by
            have h1 : bodyLines (b :: bs) = b.header :: ((b.stack ++ [[]]) ++ bodyLines bs) := by
              simp [bodyLines]
            rw [h1, List.drop_succ_cons, List.drop_append]
          rw [this, hdrop]


theorem lineAt_stack_mem (h : Str) (stack rest : List Str) (m : Nat) (h1 : 1 ≤ m)
    (h2 : m ≤ stack.length) : lineAt (h :: stack ++ rest) m ∈ stack := by
  obtain ⟨n, rfl⟩ : ∃ n, m = n + 1 := ⟨m - 1, by omega⟩
  have hn : n < stack.length := by omega
  have : lineAt (h :: stack ++ rest) (n + 1) = stack[n] := by
    simp [lineAt, List.getElem?_append_left hn, List.getElem?_eq_getElem hn]
  rw [this]
  exact List.getElem_mem hn

theorem lineAt_past_stack (h : Str) (stack rest : List Str) (m : Nat) :
    lineAt (h :: stack ++ rest) (stack.length + 1 + m) = lineAt rest m := by
  have h1 : lineAt (h :: stack ++ rest) (stack.length + 1 + m) =
      lineAt (stack ++ rest) (stack.length + m) := by
    have : stack.length + 1 + m = (stack.length + m) + 1 := by omega
    rw [this]
    simp [lineAt]
  rw [h1, ← lineAt_drop, List.drop_left]

theorem lineAt_after_stack (h : Str) (stack tail : List Str) :
    lineAt (h :: stack ++ [] :: tail) (stack.length + 1) = [] ∧
    lineAt (h :: stack ++ [] :: tail) (stack.length + 2) = lineAt tail 0 := by
  constructor
  · have := lineAt_past_stack h stack ([] :: tail) 0
    simpa [lineAt] using this
  · have := lineAt_past_stack h stack ([] :: tail) 1
    simpa [lineAt] using this

/-- The claim of C10 on the lines of a well-formed profile. -/
theorem own_stack_of_bodyLines (blocks : List Block) (hwf : ∀ b ∈ blocks, b.WellFormed)
    (i : Nat) (loc : Str) (h : appendedAt (bodyLines blocks) i = some loc) :
    Contains (lineAt (bodyLines blocks) i) "chan send".toList = true ∧
    ∃ j, i + 1 ≤ j ∧ j ≤ i + 4 ∧ j < (bodyLines blocks).length ∧
      Contains (lineAt (bodyLines blocks) j) "pprof_analysis".toList = true ∧
      loc = TrimSpace (lineAt (bodyLines blocks) j) ∧
      (∀ k, i < k → k < j →
        Contains (lineAt (bodyLines blocks) k) "pprof_analysis".toList = false) ∧
      (∀ k, i < k → k ≤ j → lineAt (bodyLines blocks) k ≠ []) ∧
      ∃ b, b ∈ blocks ∧ b.sendBlocked = true ∧
        ((bodyLines blocks).drop i).take (b.stack.length + 1) = b.header :: b.stack ∧
        j ≤ i + b.stack.length := by
  simp only [appendedAt] at h
  split at h
  · rename_i hs
    refine ⟨hs, ?_⟩
    obtain ⟨j, hj1, hj2, hjlen, hjtag, hloc, hfirst⟩ := findLocation_eq_some _ i loc h
    obtain ⟨b, hb, hsend, tail, hdrop, htail⟩ := send_line_starts_block blocks hwf i hs
    have hwfb := hwf b hb
    have hline : ∀ m, lineAt (bodyLines blocks) (i + m) =
        lineAt (b.header :: b.stack ++ [] :: tail) m := by
      intro m
      rw [← lineAt_drop, hdrop]
    have hjle : j ≤ i + b.stack.length := by
      by_contra hcon
      obtain ⟨m, rfl⟩ : ∃ m, j = i + m := ⟨j - i, by omega⟩
      have h2 := hwfb.2.2.1
      rw [hline] at hjtag
      have hm : m = b.stack.length + 1 ∨ m = b.stack.length + 2 := by omega
      rcases hm with hm | hm
      · rw [hm, (lineAt_after_stack _ _ _).1, contains_nil_tag] at hjtag
        cases hjtag
      · rw [hm, (lineAt_after_stack _ _ _).2, htail] at hjtag
        cases hjtag
    refine ⟨j, hj1, hj2, hjlen, hjtag, hloc, hfirst, ?_, b, hb, hsend, ?_, hjle⟩
    · intro k hk1 hk2
      obtain ⟨m, rfl⟩ : ∃ m, k = i + m := ⟨k - i, by omega⟩
      rw [hline]
      exact (hwfb.2.2.2 _ (lineAt_stack_mem _ _ _ m (by omega) (by omega))).2.1
    · rw [hdrop]
      simp [List.take_left']
  · cases h

/-- C10: for every goroutine profile text as the runtime writes it (well-formed
goroutine blocks), and every line index i, if a location is appended at
iteration i then line i contains "chan send" and is the header of a
send-blocked goroutine, the location is the trimmed text of the first line
containing "pprof_analysis" among lines i+1..i+4, no empty line lies between
line i and that line, and that line is one of the stack lines of the goroutine
whose header is line i; leakLocations consists of exactly the locations so
appended, in line order. -/
theorem recorded_location_in_own_stack (blocks : List Block)
    (hwf : ∀ b ∈ blocks, b.WellFormed) (i : Nat) (loc : Str)
    (h : appendedAt (splitLines (renderProfile blocks)) i = some loc) :
    Contains (lineAt (splitLines (renderProfile blocks)) i) "chan send".toList = true ∧
    (∃ j, i + 1 ≤ j ∧ j ≤ i + 4 ∧ j < (splitLines (renderProfile blocks)).length ∧
      Contains (lineAt (splitLines (renderProfile blocks)) j) "pprof_analysis".toList = true ∧
      loc = TrimSpace (lineAt (splitLines (renderProfile blocks)) j) ∧
      (∀ k, i < k → k < j →
        Contains (lineAt (splitLines (renderProfile blocks)) k) "pprof_analysis".toList =
          false) ∧
      (∀ k, i < k → k ≤ j → lineAt (splitLines (renderProfile blocks)) k ≠ []) ∧
      ∃ b, b ∈ blocks ∧ b.sendBlocked = true ∧
        ((splitLines (renderProfile blocks)).drop i).take (b.stack.length + 1) =
          b.header :: b.stack ∧
        j ≤ i + b.stack.length) ∧
    (scanProfile (renderProfile blocks)).leakLocations =
      (List.range (splitLines (renderProfile blocks)).length).filterMap
        (appendedAt (splitLines (renderProfile blocks))) := by
  refine ⟨?_, ?_, scanProfile_leakLocations _⟩
  · simp only [appendedAt] at h
    split at h
    · assumption
    · cases h
  · cases blocks with
    | nil =>
        exfalso
        have hl : ∀ k, lineAt (splitLines (renderProfile [])) k = [] := by
          intro k
          cases k <;> simp [renderProfile, splitLines, lineAt]
        simp only [appendedAt, hl, contains_nil_send] at h
        simp at h
    | cons b bs =>
        rw [splitLines_renderProfile b bs hwf] at h ⊢
        exact (own_stack_of_bodyLines (b :: bs) hwf i loc h).2

/-- C10 on the profile of the demo, at line 12, the header of goroutine 18: the
recorded location is line 14, the `main.go:54` line of that goroutine. -/
theorem recorded_location_in_own_stack_witness :
    appendedAt (splitLines (renderProfile demoBlocks)) 12 =
      some "/src/examples/pprof_analysis/main.go:54 +0x3c".toList ∧
    ∃ j, 12 + 1 ≤ j ∧ j ≤ 12 + 4 ∧ j < (splitLines (renderProfile demoBlocks)).length ∧
      Contains (lineAt (splitLines (renderProfile demoBlocks)) j) "pprof_analysis".toList =
        true ∧
      "/src/examples/pprof_analysis/main.go:54 +0x3c".toList =
        TrimSpace (lineAt (splitLines (renderProfile demoBlocks)) j) ∧
      (∀ k, 12 < k → k < j →
        Contains (lineAt (splitLines (renderProfile demoBlocks)) k) "pprof_analysis".toList =
          false) ∧
      (∀ k, 12 < k → k ≤ j → lineAt (splitLines (renderProfile demoBlocks)) k ≠ []) ∧
      ∃ b, b ∈ demoBlocks ∧ b.sendBlocked = true ∧
        ((splitLines (renderProfile demoBlocks)).drop 12).take (b.stack.length + 1) =
          b.header :: b.stack ∧
        j ≤ 12 + b.stack.length :=
  ⟨by decide,
   (recorded_location_in_own_stack demoBlocks (by decide) 12
      "/src/examples/pprof_analysis/main.go:54 +0x3c".toList (by decide)).2.1⟩

/-- When the line after `i` has no "pprof_analysis" and the second line after
`i` has, the inner loop stops at the second. -/
theorem findLocation_second (lines : List Str) (i : Nat) (hlen : i + 2 < lines.length)
    (h1 : Contains (lineAt lines (i + 1)) "pprof_analysis".toList = false)
    (h2 : Contains (lineAt lines (i + 2)) "pprof_analysis".toList = true) :
    findLocation lines i = some (TrimSpace (lineAt lines (i + 2))) := by
  have hlen1 : i + 1 < lines.length := by omega
  have hr : List.range' (i + 1) 4 = [i + 1, i + 2, i + 3, i + 4] := by
    simp [List.range']
  simp only [findLocation, hr, List.find?_filter, List.find?_cons, hlen1, hlen, h1, h2,
    decide_True, Bool.false_eq_true, and_false, and_true, decide_False, Option.map_some']

theorem filterMap_eq_replicate (g : Nat → Option Str) (p : Nat → Bool) (c : Str)
    (is : List Nat) (h : ∀ i ∈ is, g i = if p i then some c else none) :
    is.filterMap g = List.replicate (is.countP p) c := by
  induction is with
  | nil => simp
  | cons i is ih =>
      have hi := h i (List.mem_cons_self i is)
      have hrest := ih fun x hx => h x (List.mem_cons_of_mem i hx)
      rw [List.filterMap_cons, List.countP_cons, hi, hrest]
      cases p i <;> simp [List.replicate_succ]

theorem foldl_mapIncr_replicate (x : Str) (n k : Nat) :
    (List.replicate n x).foldl mapIncr [(x, k)] = [(x, k + n)] := by
  induction n generalizing k with
  | zero => simp
  | succ n ih =>
      rw [List.replicate_succ, List.foldl_cons]
      have : mapIncr [(x, k)] x = [(x, k + 1)] := by simp [mapIncr]
      rw [this, ih]
      congr 2
      omega

theorem buildSeen_replicate (x : Str) (n : Nat) (hn : 0 < n) :
    buildSeen (List.replicate n x) = [(x, n)] := by
  obtain ⟨m, rfl⟩ : ∃ m, n = m + 1 := ⟨n - 1, by omega⟩
  rw [buildSeen, List.replicate_succ, List.foldl_cons]
  have : mapIncr [] x = [(x, 1)] := by simp [mapIncr]
  rw [this, foldl_mapIncr_replicate]
  congr 2
  omega

/-- The lines containing "chan send" are the headers of the send-blocked
goroutines. -/
theorem countP_bodyLines (blocks : List Block) (hwf : ∀ b ∈ blocks, b.WellFormed) :
    (bodyLines blocks).countP (fun line => Contains line "chan send".toList) =
      blocks.countP Block.sendBlocked := by
  induction blocks with
  | nil => simp [bodyLines]
  | cons b bs ih =>
      have hb := hwf b (List.mem_cons_self b bs)
      have hrest := ih fun x hx => hwf x (List.mem_cons_of_mem b hx)
      have hstack : b.stack.countP (fun line => Contains line "chan send".toList) = 0 := by
        rw [List.countP_eq_zero]
        intro l hl
        rw [(hb.2.2.2 l hl).2.2]
        simp
      simp only [bodyLines, List.countP_cons, List.countP_append, hstack, hrest,
        contains_nil_send, Block.sendBlocked]
      simp only [Bool.false_eq_true, if_false, Nat.add_zero, Nat.zero_add]
      omega

/-- The claim of C9 on the lines of a well-formed profile of the program. -/
theorem appendedAt_of_single_site (blocks : List Block) (hwf : ∀ b ∈ blocks, b.WellFormed)
    (fn file : Str) (hfn : Contains fn "pprof_analysis".toList = false)
    (hfile : Contains file "pprof_analysis".toList = true)
    (hsite : ∀ b ∈ blocks, b.sendBlocked = true → b.stack.take 2 = [fn, file]) (i : Nat) :
    appendedAt (bodyLines blocks) i =
      if Contains (lineAt (bodyLines blocks) i) "chan send".toList then some (TrimSpace file)
      else none := by
  simp only [appendedAt]
  split
  · rename_i hs
    obtain ⟨b, hb, hsend, tail, hdrop, _⟩ := send_line_starts_block blocks hwf i hs
    have htake := hsite b hb hsend
    obtain ⟨rest, hstack⟩ : ∃ rest, b.stack = fn :: file :: rest := by
      match hst : b.stack, htake with
      | [], ht => simp at ht
      | [_], ht => simp at ht
      | a :: c :: rest, ht =>
          simp only [List.take_succ_cons, List.take_zero, List.cons.injEq, and_true] at ht
          exact ⟨rest, by rw [ht.1, ht.2]⟩
    rw [hstack] at hdrop
    have hline : ∀ m, lineAt (bodyLines blocks) (i + m) =
        lineAt (b.header :: (fn :: file :: rest) ++ [] :: tail) m := by
      intro m
      rw [← lineAt_drop, hdrop]
    have h1 : lineAt (bodyLines blocks) (i + 1) = fn := by rw [hline]; simp [lineAt]
    have h2 : lineAt (bodyLines blocks) (i + 2) = file := by rw [hline]; simp [lineAt]
    have hlen : i + 2 < (bodyLines blocks).length := by
      have := congrArg List.length hdrop
      simp only [List.length_drop, List.length_cons, List.length_append] at this
      omega
    rw [findLocation_second _ i hlen (by rw [h1]; exact hfn) (by rw [h2]; exact hfile), h2]
  · rfl

/-- C9: for every goroutine profile text the program can read, that is, a
well-formed profile in which every send-blocked goroutine stands at the
program's only send (its stack begins with the same function line, which has no
"pprof_analysis", and the same `file:line` line, which has), and in which
blockedOnSend > 0: `seen` has exactly one key, the trimmed `file:line` line,
that key's count equals blockedOnSend, so the number printed as "goroutines
blocked at the same location" is the count at that one location; and it is the
number of send-blocked goroutines of the profile. -/
theorem reported_count_is_location_count (blocks : List Block)
    (hwf : ∀ b ∈ blocks, b.WellFormed) (fn file : Str)
    (hfn : Contains fn "pprof_analysis".toList = false)
    (hfile : Contains file "pprof_analysis".toList = true)
    (hsite : ∀ b ∈ blocks, b.sendBlocked = true → b.stack.take 2 = [fn, file])
    (hpos : 0 < (scanProfile (renderProfile blocks)).blockedOnSend) :
    mapKeys (buildSeen (scanProfile (renderProfile blocks)).leakLocations) =
      [TrimSpace file] ∧
    mapGet (buildSeen (scanProfile (renderProfile blocks)).leakLocations) (TrimSpace file) =
      (scanProfile (renderProfile blocks)).blockedOnSend ∧
    reportedAtSameLocation (scanProfile (renderProfile blocks)) =
      mapGet (buildSeen (scanProfile (renderProfile blocks)).leakLocations)
        (TrimSpace file) ∧
    (scanProfile (renderProfile blocks)).blockedOnSend = blocks.countP Block.sendBlocked := by
  cases blocks with
  | nil =>
      exfalso
      rw [scanProfile_blockedOnSend] at hpos
      simp only [renderProfile, splitLines, List.countP_cons, List.countP_nil,
        contains_nil_send] at hpos
      simp at hpos
  | cons b bs =>
      have hlines := splitLines_renderProfile b bs hwf
      have hsend : (scanProfile (renderProfile (b :: bs))).blockedOnSend =
          (List.range (bodyLines (b :: bs)).length).countP
            (fun i => Contains (lineAt (bodyLines (b :: bs)) i) "chan send".toList) := by
        have h := foldl_loopBody_blockedOnSend (bodyLines (b :: bs))
          (List.range (bodyLines (b :: bs)).length) ⟨0, 0, []⟩
        simp only [scanProfile, scanLines, hlines, h, Nat.zero_add]
      have hleak : (scanProfile (renderProfile (b :: bs))).leakLocations =
          List.replicate (scanProfile (renderProfile (b :: bs))).blockedOnSend
            (TrimSpace file) := by
        rw [hsend, scanProfile_leakLocations, hlines]
        exact filterMap_eq_replicate _ _ _ _
          fun i _ => appendedAt_of_single_site (b :: bs) hwf fn file hfn hfile hsite i
      have hseen := buildSeen_replicate (TrimSpace file) _ hpos
      rw [← hleak] at hseen
      have hcount : (scanProfile (renderProfile (b :: bs))).blockedOnSend =
          (b :: bs).countP Block.sendBlocked := by
        rw [scanProfile_blockedOnSend, hlines]
        exact countP_bodyLines (b :: bs) hwf
      refine ⟨by rw [hseen]; rfl, by rw [hseen]; simp [mapGet], ?_, hcount⟩
      rw [hseen]
      simp [mapGet, reportedAtSameLocation]

/-- C9 on the profile of the demo: two goroutines are blocked on send, both at
`main.go:54`; `seen` has that one key with count 2, and 2 is the number printed
as "goroutines blocked at the same location". -/
theorem reported_count_is_location_count_witness :
    (scanProfile (renderProfile demoBlocks)).blockedOnSend = 2 ∧
    mapKeys (buildSeen (scanProfile (renderProfile demoBlocks)).leakLocations) =
      [TrimSpace "\t/src/examples/pprof_analysis/main.go:54 +0x3c".toList] ∧
    mapGet (buildSeen (scanProfile (renderProfile demoBlocks)).leakLocations)
        (TrimSpace "\t/src/examples/pprof_analysis/main.go:54 +0x3c".toList) =
      (scanProfile (renderProfile demoBlocks)).blockedOnSend ∧
    reportedAtSameLocation (scanProfile (renderProfile demoBlocks)) =
      mapGet (buildSeen (scanProfile (renderProfile demoBlocks)).leakLocations)
        (TrimSpace "\t/src/examples/pprof_analysis/main.go:54 +0x3c".toList) :=
  have h := reported_count_is_location_count demoBlocks (by decide)
    "main.leakyFetch.func1()".toList
    "\t/src/examples/pprof_analysis/main.go:54 +0x3c".toList (by decide) (by decide)
    (by decide) (by decide)
  ⟨by decide, h.1, h.2.1, h.2.2.1⟩

end pprof_analysis

end GoLeaks
